import Mathlib

/-!
Verification development for the song-structure and songwriting-metadata
derivation engine (`helpers.js`).

Modelling conventions, used throughout:

* JS numbers are modelled as exact rationals (`ℚ`); IEEE-754 rounding is
  outside the model.
* A JS value that may be a plain number or an object wrapper is modelled by a
  two-constructor inductive type; JS truthiness of a number is `≠ 0`, and an
  object is always truthy.
* `x || d` on numbers is `jsOr x d` (falsy, i.e. zero, falls back to `d`);
  on strings the empty string is the falsy case.
* `Array.prototype.slice(s, e)` for `0 ≤ s ≤ e` is `jsSlice`.
* Division by zero in ℚ yields `0`; in JS it yields `Infinity`/`NaN`.  Every
  place where this matters is noted at the definition site: the engine only
  ever compares such quotients with strict `<`/`>` thresholds, and a JS `NaN`
  fails every such comparison exactly as the rational `0` produced here does
  for the inputs covered by the theorems below.
* `Math.sqrt` is a real-valued operation with no exact rational counterpart.
  It is threaded through the affected definitions as an explicit parameter
  `sqrt : ℚ → ℚ`; theorems that depend on its behaviour assume only the
  comparison law `0 ≤ s → (sqrt s < 1/10 ↔ s < 1/100)`, which the real square
  root satisfies, and all other theorems hold for every `sqrt`.
-/

set_option allowUnsafeReducibility true in
attribute [semireducible] Rat.add Rat.mul Rat.inv Rat.sub Rat.ofScientific

namespace Essentia

/-- JS `x || d` for numbers: `x` when truthy (non-zero), else `d`. -/
def jsOr (x d : ℚ) : ℚ := if x = 0 then d else x

/-- JS `s || d` for strings: `s` when truthy (non-empty), else `d`. -/
def jsOrS (s d : String) : String := if s = "" then d else s

/-- JS `Array.prototype.slice(s, e)` restricted to `0 ≤ s`, `0 ≤ e`. -/
def jsSlice (l : List α) (s e : ℕ) : List α := (l.drop s).take (e - s)

/-- An entry of a `danceability` or `energy`/dynamic-complexity series:
a plain number or an object `{value}` (the `value` field may be absent). -/
inductive DEntry where
  | num (q : ℚ)
  | obj (value : Option ℚ)
deriving DecidableEq

/-- `typeof e === 'object' ? e.value || 0 : e` — the numeric payload of a
danceability/energy entry as read by the engine. -/
def DEntry.read : DEntry → ℚ
  | .num q => q
  | .obj v => jsOr (v.getD 0) 0

/-- JS truthiness of a danceability/energy entry. -/
def DEntry.truthy : DEntry → Bool
  | .num q => decide (q ≠ 0)
  | .obj _ => true

/-- An entry of a `tempo` series: a plain number of bpm or an object `{bpm}`. -/
inductive TEntry where
  | num (q : ℚ)
  | obj (bpm : Option ℚ)
deriving DecidableEq

/-- `typeof e === 'object' ? e.bpm || 120 : e` — the bpm payload as read by the
psychological-descriptor calculator. -/
def TEntry.read : TEntry → ℚ
  | .num q => q
  | .obj b => jsOr (b.getD 0) 120

/-- JS truthiness of a tempo entry. -/
def TEntry.truthy : TEntry → Bool
  | .num q => decide (q ≠ 0)
  | .obj _ => true

/-- `e.bpm || 0` as used by the section detector's window loop: a plain
number has no `bpm` field, so it reads as `0`. -/
def TEntry.bpmOrZero : TEntry → ℚ
  | .num _ => 0
  | .obj b => jsOr (b.getD 0) 0

/-- A melody/harmony frame: the engine only ever reads the optional `pitch`
array and the optional `chords` label array.  A frame object lacking a field
behaves identically to a null entry at every use site, so both are modelled
by `none` fields.  Note `some []` (a present but empty array) is truthy in
JS and is therefore distinct from `none`. -/
structure Frame where
  pitch : Option (List ℚ)
  chords : Option (List String)
deriving DecidableEq

/-- A timbre frame `{mfcc}` with an optional MFCC coefficient vector. -/
structure TimbreFrame where
  mfcc : Option (List ℚ)
deriving DecidableEq

/-- The feature record consumed by the engine.  A series that a caller omits
behaves identically to an empty series at every use site (`xs && xs[j]` and
`xs?.slice(...)` both degrade the same way), so absent series are modelled
as `[]`. -/
structure Features where
  energy : List DEntry
  tempo : List TEntry
  harmony : List Frame
  timbre : List TimbreFrame
  danceability : List DEntry
  melody : List Frame
deriving DecidableEq

/-- A loop point produced by `generateLoopPoints` (the JS field `end` is a
Lean keyword and is written `«end»`). -/
structure LoopPoint where
  id : String
  start : ℚ
  «end» : ℚ
  length : ℕ
  type : String
  startBeat : ℕ
  endBeat : ℕ
deriving DecidableEq

/-- The average of the consecutive beat differences
(`beatIntervals.reduce(...) / beatIntervals.length`). -/
def avgBeatInterval (beats : List ℚ) : ℚ :=
  (List.zipWith (fun b a => b - a) beats.tail beats).sum /
    ((List.zipWith (fun b a => b - a) beats.tail beats).length : ℚ)

/-- `generateLoopPoints(beats, loopLengths)`.  The JS inner loop
`for (let i = 0; i < beats.length - length; i += length)` visits, for step
`L ≥ 1`, exactly the indices `i < beats.length - L` with `i % L = 0`, which
is how it is rendered here.  (For `L = 0` the JS loop would not terminate;
the theorems below assume positive loop lengths.)  The `sampleRate`
parameter of the source is unused by the function body and is omitted. -/
def generateLoopPoints (beats : List ℚ) (loopLengths : List ℕ) : List LoopPoint :=
  if beats.length < 2 then []
  else
    loopLengths.flatMap (fun len =>
      let loopDuration := (len : ℚ) * avgBeatInterval beats
      ((List.range (beats.length - len)).filter (fun i => decide (i % len = 0))).filterMap
        (fun i =>
          let start := beats.getD i 0
          let e := start + loopDuration
          if e ≤ beats.getLastD 0 then
            some { id := "loop-" ++ toString len ++ "-" ++ toString i,
                   start := start, «end» := e, length := len,
                   type := toString len ++ "-beat", startBeat := i, endBeat := i + len }
          else none))

/-- `calculateVariance(arr)`: population variance, `0` on the empty array. -/
def calculateVariance (arr : List ℚ) : ℚ :=
  if arr.length = 0 then 0
  else
    let mean := arr.sum / (arr.length : ℚ)
    (arr.map (fun v => (v - mean) ^ 2)).sum / (arr.length : ℚ)

/-- One entry of the emotional trajectory. -/
structure TrajPoint where
  time : ℚ
  valence : ℚ
  arousal : ℚ
deriving DecidableEq

/-- A `{valence, arousal}` snapshot (the `from`/`to` fields of a shift). -/
structure VA where
  valence : ℚ
  arousal : ℚ
deriving DecidableEq

/-- A paradigm-shift record; the JS fields `from`/`to` are Lean keywords and
are written `fromVal`/`toVal`. -/
structure Shift where
  time : ℚ
  type : String
  magnitude : ℚ
  fromVal : VA
  toVal : VA
deriving DecidableEq

/-- The psychological profile returned by `calculatePsychologicalDescriptors`. -/
structure Psych where
  overallValence : ℚ
  overallArousal : ℚ
  emotionalTrajectory : List TrajPoint
  paradigmShifts : List Shift
deriving DecidableEq

/-- `danceability && danceability[i] ? (typeof … ? ….value || 0 : …) : 0.5` —
the per-frame danceability (and, with the same shape, energy) read with its
`0.5` fallback for an absent or falsy entry. -/
def dEntryAt (l : List DEntry) (i : ℕ) : ℚ :=
  match l.get? i with
  | some e => if e.truthy then e.read else 1/2
  | none => 1/2

/-- `tempo && tempo[i] ? (typeof … ? ….bpm || 120 : …) : 120` — the per-frame
tempo read with its `120` fallback. -/
def tempoAt (l : List TEntry) (i : ℕ) : ℚ :=
  match l.get? i with
  | some e => if e.truthy then e.read else 120
  | none => 120

/-- `Math.min(1, Math.max(0, q))`. -/
def clamp01 (q : ℚ) : ℚ := min 1 (max 0 q)

/-- The trajectory entry pushed for frame `i` by
`calculatePsychologicalDescriptors`. -/
def trajPointAt (danceability energy : List DEntry) (tempo : List TEntry) (fd : ℚ) (i : ℕ) :
    TrajPoint :=
  { time := (i : ℚ) * fd,
    valence := clamp01 (dEntryAt danceability i),
    arousal := dEntryAt energy i * (6/10) + min 1 (tempoAt tempo i / 200) * (4/10) }

/-- `detectParadigmShifts(trajectory, threshold)`: one shift per consecutive
pair whose valence or arousal jump exceeds the threshold. -/
def detectParadigmShifts (trajectory : List TrajPoint) (threshold : ℚ) : List Shift :=
  (trajectory.zip trajectory.tail).filterMap (fun pr =>
    let prev := pr.1
    let curr := pr.2
    let valenceChange := |curr.valence - prev.valence|
    let arousalChange := |curr.arousal - prev.arousal|
    if threshold < valenceChange ∨ threshold < arousalChange then
      some { time := curr.time,
             type := if arousalChange < valenceChange then "valence" else "arousal",
             magnitude := max valenceChange arousalChange,
             fromVal := ⟨prev.valence, prev.arousal⟩,
             toVal := ⟨curr.valence, curr.arousal⟩ }
    else none)

/-- `calculatePsychologicalDescriptors(danceability, energy, tempo,
sampleRate, hopSize)`. -/
def calculatePsychologicalDescriptors (danceability energy : List DEntry) (tempo : List TEntry)
    (sampleRate hopSize : ℚ) : Psych :=
  let fd := hopSize / sampleRate
  let maxFrames := max (max danceability.length energy.length) tempo.length
  let trajectory := (List.range maxFrames).map (trajPointAt danceability energy tempo fd)
  { overallValence :=
      if 0 < trajectory.length then (trajectory.map (·.valence)).sum / (trajectory.length : ℚ)
      else 1/2,
    overallArousal :=
      if 0 < trajectory.length then (trajectory.map (·.arousal)).sum / (trajectory.length : ℚ)
      else 1/2,
    emotionalTrajectory := trajectory,
    paradigmShifts := detectParadigmShifts trajectory (3/10) }

/-- A tension/release curve point. -/
structure TPoint where
  time : ℚ
  value : ℚ
deriving DecidableEq

/-- The story-arc analysis result. -/
structure StoryArc where
  tension : List TPoint
  release : List TPoint
  narrativeStructure : String
deriving DecidableEq

/-- `findPeaks(arr, threshold)`: interior indices that strictly dominate both
neighbours and exceed the threshold. -/
def findPeaks (arr : List ℚ) (threshold : ℚ) : List ℕ :=
  (List.range arr.length).filter (fun i =>
    decide (1 ≤ i) && decide (i + 1 < arr.length) &&
    decide (arr.getD (i - 1) 0 < arr.getD i 0) &&
    decide (arr.getD (i + 1) 0 < arr.getD i 0) &&
    decide (threshold < arr.getD i 0))

/-- `inferNarrativeStructure(tension, release)`; `release` is accepted but
unused, exactly as in the source. -/
def inferNarrativeStructure (tension release : List TPoint) : String :=
  let peaks := findPeaks (tension.map (·.value)) (1/2)
  let labels := (List.range peaks.length).map (fun i =>
    if i = 0 then "intro" else if i % 2 = 1 then "verse" else "chorus")
  if labels.length = 0 then "unknown" else String.intercalate "-" labels

/-- `analyzeStoryArc(pitchMelody, chords, sampleRate, hopSize)`.  The tension
loop pushes one point per frame that carries a `pitch` array (the push loop is
rendered as a left fold over the frame indices); `chords` is accepted but
unused by the tension computation, as in the source. -/
def analyzeStoryArc (pitchMelody chords : List Frame) (sampleRate hopSize : ℚ) : StoryArc :=
  let fd := hopSize / sampleRate
  let tension := (List.range pitchMelody.length).foldl (fun acc i =>
    match (pitchMelody.getD i ⟨none, none⟩).pitch with
    | some p => acc ++ [⟨(i : ℚ) * fd, calculateVariance (p.filter (fun x => decide (0 < x)))⟩]
    | none => acc) []
  let release := (List.zipWith3 (fun a b c => (a, b, c)) tension tension.tail
      tension.tail.tail).filterMap (fun tr =>
    if tr.2.1.value < tr.1.value ∧ tr.2.1.value < tr.2.2.value then
      some ⟨tr.2.1.time, tr.2.1.value⟩
    else none)
  { tension := tension, release := release,
    narrativeStructure := inferNarrativeStructure tension release }

/-- The pattern type tag (`'melodic'` / `'harmonic'`). -/
inductive PType where
  | melodic
  | harmonic
deriving DecidableEq

/-- The string form of a pattern type, used in motif ids. -/
def PType.str : PType → String
  | .melodic => "melodic"
  | .harmonic => "harmonic"

/-- A canonical-pattern element: the first five pitch values of a melodic
frame, or the first four chord labels of a harmonic frame.  `JSON.stringify`
is injective on these shapes, so the JS string keys are modelled by
structural equality on this type. -/
def PatElem : Type := List ℚ ⊕ List String

instance : DecidableEq PatElem :=
  inferInstanceAs (DecidableEq (List ℚ ⊕ List String))

/-- The projection of one frame performed inside `extractPattern`: a melodic
extraction reads `frame.pitch` (skipping frames without it), a harmonic one
reads `frame.chords`. -/
def frameProj (t : PType) (f : Frame) : Option PatElem :=
  match t with
  | .melodic => f.pitch.map (fun p => Sum.inl (p.take 5))
  | .harmonic => f.chords.map (fun c => Sum.inr (c.take 4))

/-- `extractPattern(features, start, length, type)`: project the frames
`start ≤ i < min (start+length) features.length`, skipping frames that lack
the required field. -/
def extractPattern (features : List Frame) (start len : ℕ) (t : PType) : List PatElem :=
  ((features.drop start).take len).filterMap (frameProj t)

/-- The sum of squared coordinate differences of two equally long numeric
arrays — the radicand of the JS Euclidean distance. -/
def sumSq (a b : List ℚ) : ℚ := (List.zipWith (fun x y => (x - y) ^ 2) a b).sum

/-- `euclideanDistance(arr1, arr2)` on numeric arrays: `0` on a length
mismatch, else `Math.sqrt` of the squared sum (with `Math.sqrt` the explicit
parameter, see the module comment). -/
def euclideanDistance (sqrt : ℚ → ℚ) (a b : List ℚ) : ℚ :=
  if a.length ≠ b.length then 0 else sqrt (sumSq a b)

/-- The comparison `euclideanDistance(e1, e2) < 0.1` performed by
`calculatePatternSimilarity` on two pattern elements, with JS semantics:

* two numeric arrays of different lengths give distance `0` — a match;
* two numeric arrays of equal length compare `Math.sqrt` of the squared sum;
* arithmetic on (non-numeric) chord labels yields `NaN`, whose square sum is
  `NaN`, and `NaN < 0.1` is false — no match — except when the arrays are
  empty, where the sum is `0` and `Math.sqrt(0) < 0.1` is compared. -/
def matchElem (sqrt : ℚ → ℚ) : PatElem → PatElem → Bool
  | .inl a, .inl b =>
      if a.length = b.length then decide (sqrt (sumSq a b) < 1/10) else true
  | .inr a, .inr b =>
      if a.length = b.length then
        (if a.length = 0 then decide (sqrt 0 < 1/10) else false)
      else true
  | .inl a, .inr b =>
      if a.length = b.length then
        (if a.length = 0 then decide (sqrt 0 < 1/10) else false)
      else true
  | .inr a, .inl b =>
      if a.length = b.length then
        (if a.length = 0 then decide (sqrt 0 < 1/10) else false)
      else true

/-- `calculatePatternSimilarity(pattern1, pattern2)`: `0` on a length
mismatch, else the fraction of positions whose elements match (both elements
are always arrays, so the JS `Array.isArray` guard is always true).  For two
empty patterns the JS quotient `0/0` is `NaN`; the rational `0` produced
here takes the same branch at every use site (both fail the strict `>`
threshold tests). -/
def calculatePatternSimilarity (sqrt : ℚ → ℚ) (p1 p2 : List PatElem) : ℚ :=
  if p1.length ≠ p2.length then 0
  else (((p1.zip p2).countP (fun pr => matchElem sqrt pr.1 pr.2) : ℕ) : ℚ) / (p1.length : ℚ)

/-- The motif-evolution classification. -/
inductive Evo where
  | stable
  | variation
  | transformation
deriving DecidableEq

/-- `detectPatternEvolution(pattern, occurrences, features)`: re-extract the
pattern at the first and last occurrence — with the hard-coded type
`'melodic'` and the canonical pattern's length — and classify by strict
similarity thresholds. -/
def detectPatternEvolution (sqrt : ℚ → ℚ) (pattern : List PatElem) (occurrences : List ℕ)
    (features : List Frame) : Evo :=
  if occurrences.length < 2 then .stable
  else
    let firstP := extractPattern features (occurrences.headD 0) pattern.length .melodic
    let lastP := extractPattern features (occurrences.getLastD 0) pattern.length .melodic
    let similarity := calculatePatternSimilarity sqrt firstP lastP
    if 4/5 < similarity then .stable
    else if 1/2 < similarity then .variation
    else .transformation

/-- Association-list lookup, modelling `Map.prototype.get`. -/
def findGroup (gs : List (List PatElem × List ℕ)) (key : List PatElem) : Option (List ℕ) :=
  match gs with
  | [] => none
  | (k, o) :: rest => if k = key then some o else findGroup rest key

/-- One step of the JS grouping loop: `if (!m.has(key)) m.set(key, []);
m.get(key).push(i)`.  A new key is appended at the end, matching `Map`
insertion order. -/
def upsert (gs : List (List PatElem × List ℕ)) (key : List PatElem) (i : ℕ) :
    List (List PatElem × List ℕ) :=
  match gs with
  | [] => [(key, [i])]
  | (k, o) :: rest => if k = key then (k, o ++ [i]) :: rest else (k, o) :: upsert rest key i

/-- One iteration of the shared grouping loop: canonicalize the window at
`i` and append `i` to its group. -/
def minerStep (features : List Frame) (k : ℕ) (t : PType)
    (gs : List (List PatElem × List ℕ)) (i : ℕ) : List (List PatElem × List ℕ) :=
  upsert gs (extractPattern features i k t) i

/-- The shared grouping loop of `findRepeatingPatterns` and `findQuotes`:
for `i = 0; i < features.length - k; i++`, canonicalize the window at `i`
and append `i` to its group. -/
def collectGroups (features : List Frame) (k : ℕ) (t : PType) :
    List (List PatElem × List ℕ) :=
  (List.range (features.length - k)).foldl (minerStep features k t) []

/-- A motif record. -/
structure Motif where
  id : String
  type : PType
  pattern : List PatElem
  occurrences : List (ℕ × ℕ)
  evolution : Evo
deriving DecidableEq

/-- `findRepeatingPatterns(features, type, minOccurrences)` with its
hard-coded pattern length `4`: keep the groups with enough occurrences and
number the retained motifs in group order (`motif-{type}-{index}`). -/
def findRepeatingPatterns (sqrt : ℚ → ℚ) (features : List Frame) (t : PType)
    (minOccurrences : ℕ) : List Motif :=
  let keep := (collectGroups features 4 t).filter (fun g => decide (minOccurrences ≤ g.2.length))
  (List.range keep.length).map (fun idx =>
    let g := keep.getD idx ([], [])
    { id := "motif-" ++ t.str ++ "-" ++ toString idx,
      type := t,
      pattern := g.1,
      occurrences := g.2.map (fun i => (i, i + 4)),
      evolution := detectPatternEvolution sqrt g.1 g.2 features })

/-- `extractMotifs(pitchMelody, chords, minOccurrences)`. -/
def extractMotifs (sqrt : ℚ → ℚ) (pitchMelody chords : List Frame) (minOccurrences : ℕ) :
    List Motif :=
  (if 0 < pitchMelody.length then findRepeatingPatterns sqrt pitchMelody .melodic minOccurrences
   else []) ++
  (if 0 < chords.length then findRepeatingPatterns sqrt chords .harmonic minOccurrences
   else [])

/-- A quote record: the earliest occurrence is `original`, the later ones
`quoted`. -/
structure Quote where
  type : PType
  original : ℕ × ℕ
  quoted : List (ℕ × ℕ)
deriving DecidableEq

/-- `findQuotes(features, type, phraseLength)`: same grouping as the motif
miner, fixed occurrence threshold `2`. -/
def findQuotes (features : List Frame) (t : PType) (phraseLength : ℕ) : List Quote :=
  ((collectGroups features phraseLength t).filter (fun g => decide (2 ≤ g.2.length))).map
    (fun g =>
      { type := t,
        original := (g.2.headD 0, g.2.headD 0 + phraseLength),
        quoted := g.2.tail.map (fun i => (i, i + phraseLength)) })

/-- `detectQuotes(pitchMelody, chords)` with its hard-coded phrase length 8. -/
def detectQuotes (pitchMelody chords : List Frame) : List Quote :=
  (if 0 < pitchMelody.length then findQuotes pitchMelody .melodic 8 else []) ++
  (if 0 < chords.length then findQuotes chords .harmonic 8 else [])

/-- `detectHarmonyChange(harmony)`: the number of consecutive frame pairs
that differ (under `JSON.stringify` equality, i.e. structural equality),
divided by the window length; `0` below two frames. -/
def detectHarmonyChange (harmony : List Frame) : ℚ :=
  if harmony.length < 2 then 0
  else (((harmony.zip harmony.tail).countP (fun pr => decide (pr.2 ≠ pr.1)) : ℕ) : ℚ) /
    (harmony.length : ℚ)

/-- `detectTimbreChange(timbre)`: the summed MFCC distance of consecutive
frames (pairs lacking an `mfcc` vector contribute `0`), divided by
`timbre.length - 1`; `0` below two frames. -/
def detectTimbreChange (sqrt : ℚ → ℚ) (timbre : List TimbreFrame) : ℚ :=
  if timbre.length < 2 then 0
  else
    let total := ((timbre.zip timbre.tail).map (fun pr =>
      match pr.2.mfcc, pr.1.mfcc with
      | some curr, some prev => euclideanDistance sqrt curr prev
      | _, _ => 0)).sum
    total / ((timbre.length : ℚ) - 1)

/-- Per-window summary statistics. -/
structure WStat where
  start : ℚ
  «end» : ℚ
  avgEnergy : ℚ
  maxEnergy : ℚ
  avgTempo : ℚ
  energyVariance : ℚ
  harmonyChange : ℚ
  timbreChange : ℚ
deriving DecidableEq

/-- An all-zero window statistic, the (never reached) fallback of in-range
array indexing. -/
def dummyStat : WStat := ⟨0, 0, 0, 0, 0, 0, 0, 0⟩

/-- `windowSize = Math.floor(2 / frameDuration)` for
`frameDuration = hopSize / sampleRate`. -/
def winSize (sampleRate hopSize : ℚ) : ℕ := (⌊(2 : ℚ) / (hopSize / sampleRate)⌋).toNat

/-- The number of windows produced by `for (i = 0; i < n; i += w)` for
`w ≥ 1`, namely `⌈n / w⌉`.  (For `w = 0` the JS loop would not terminate;
the theorems below assume `1 ≤ w`.) -/
def numWindows (n w : ℕ) : ℕ := if w = 0 then 0 else (n + w - 1) / w

/-- The statistics of window `k` of `detectSongSections`: frames
`[k*w, min (k*w + w) n)`.  Every energy entry in range is pushed (the JS
`!== undefined` test always holds in range); tempo entries are pushed when
truthy, via their `bpm || 0` field; harmony and timbre entries are always
truthy objects. -/
def statAt (sqrt : ℚ → ℚ) (f : Features) (fd : ℚ) (w n k : ℕ) : WStat :=
  let sf := k * w
  let ef := min (k * w + w) n
  let es := (jsSlice f.energy sf ef).map DEntry.read
  let ts := (jsSlice f.tempo sf ef).filterMap
    (fun e => if e.truthy then some e.bpmOrZero else none)
  let hs := jsSlice f.harmony sf ef
  let tbs := jsSlice f.timbre sf ef
  { start := (sf : ℚ) * fd,
    «end» := (ef : ℚ) * fd,
    avgEnergy := if es.length = 0 then 0 else es.sum / (es.length : ℚ),
    maxEnergy := match es with | [] => 0 | h :: tl => tl.foldl max h,
    avgTempo := if ts.length = 0 then 0 else ts.sum / (ts.length : ℚ),
    energyVariance := calculateVariance es,
    harmonyChange := detectHarmonyChange hs,
    timbreChange := detectTimbreChange sqrt tbs }

/-- The per-window statistics list of `detectSongSections`. -/
def windowStats (sqrt : ℚ → ℚ) (f : Features) (fd : ℚ) (w n : ℕ) : List WStat :=
  (List.range (numWindows n w)).map (statAt sqrt f fd w n)

/-- The boundary test between windows `i-1` and `i`: relative energy change
`> 0.3`, or relative tempo change `> 0.15`, or harmony change `> 0.5`, or
timbre change `> 0.4`.  (The source also reads `windowStats[i+1]` into an
unused variable `next`.)  In ℚ a vanishing denominator gives quotient `0`
(no boundary) where JS would give `±Infinity` (a boundary); this corner —
`avgEnergy` or `avgTempo` exactly `-0.001` — is avoided by every concrete
input used below and does not affect the coverage theorems, which hold for
every boundary outcome. -/
def boundaryCond (stats : List WStat) (i : ℕ) : Bool :=
  let prev := stats.getD (i - 1) dummyStat
  let curr := stats.getD i dummyStat
  let energyChange := |curr.avgEnergy - prev.avgEnergy| / (prev.avgEnergy + 1/1000)
  let tempoChange := |curr.avgTempo - prev.avgTempo| / (prev.avgTempo + 1/1000)
  decide (3/10 < energyChange ∨ 3/20 < tempoChange ∨
    1/2 < curr.harmonyChange ∨ 2/5 < curr.timbreChange)

/-- The boundary index list: `[0]`, then every interior window index
`1 ≤ i < numWin - 1` passing the boundary test, then `numWin - 1`. -/
def boundariesOf (stats : List WStat) (numWin : ℕ) : List ℕ :=
  0 :: ((List.range (numWin - 1)).filter (fun i => decide (1 ≤ i) && boundaryCond stats i)) ++
    [numWin - 1]

/-- A classified section (the JS field `end` is written `«end»`). -/
structure SectionMeta where
  avgEnergy : ℚ
  avgTempo : ℚ
  energyVariance : ℚ
deriving DecidableEq

/-- A detected song section. -/
structure SongSection where
  type : String
  start : ℚ
  «end» : ℚ
  confidence : ℚ
  metadata : SectionMeta
deriving DecidableEq

/-- The classification of one boundary pair `(a, c)` (JS `boundaries[i]`,
`boundaries[i+1]`): average the statistics of windows `a..c` and classify in
priority order chorus / intro / outro (only for the last pair) / bridge /
verse. -/
def mkSection (stats : List WStat) (a c : ℕ) (isLast : Bool) : SongSection :=
  let sw := jsSlice stats a (c + 1)
  let len : ℚ := (sw.length : ℚ)
  let avgEnergy := (sw.map (·.avgEnergy)).sum / len
  let avgTempo := (sw.map (·.avgTempo)).sum / len
  let energyVariance := (sw.map (·.energyVariance)).sum / len
  let tc :=
    if 7/10 < avgEnergy ∧ energyVariance < 1/10 then ("chorus", (4/5 : ℚ))
    else if avgEnergy < 3/10 then ("intro", 7/10)
    else if isLast ∧ avgEnergy < 2/5 then ("outro", 7/10)
    else if 3/10 < energyVariance then ("bridge", 3/5)
    else ("verse", 1/2)
  { type := tc.1,
    start := (sw.headD dummyStat).start,
    «end» := (sw.getLastD dummyStat).«end»,
    confidence := tc.2,
    metadata := ⟨avgEnergy, avgTempo, energyVariance⟩ }

/-- The section-assembly loop over consecutive boundary pairs. -/
def sectionsOf (stats : List WStat) (b : List ℕ) : List SongSection :=
  (List.range (b.length - 1)).map (fun i =>
    mkSection stats (b.getD i 0) (b.getD (i + 1) 0) (decide (i = b.length - 2)))

/-- `detectSongSections(features, sampleRate, hopSize)`. -/
def detectSongSections (sqrt : ℚ → ℚ) (f : Features) (sampleRate hopSize : ℚ) :
    List SongSection :=
  if f.energy.length = 0 then []
  else
    let fd := hopSize / sampleRate
    let w := winSize sampleRate hopSize
    let n := f.energy.length
    let stats := windowStats sqrt f fd w n
    sectionsOf stats (boundariesOf stats (numWindows n w))

/-- `h.chords?.[0] || 'unknown'`: the first chord label of a frame, with
`'unknown'` for a frame lacking a (non-empty) chords array or whose first
label is the empty string. -/
def headChordLabel (f : Frame) : String :=
  match f.chords with
  | some (c :: _) => jsOrS c "unknown"
  | _ => "unknown"

/-- `arr.filter((v, i, a) => a.indexOf(v) === i)` — the JS first-occurrence
de-duplication idiom. -/
def jsDedupFilter (l : List String) : List String :=
  (l.enum.filter (fun pr => decide (l.indexOf pr.2 = pr.1))).map (·.2)

/-- The loop-level metadata record. -/
structure LoopMeta where
  energy : ℚ
  harmony : List String
  psychological : VA
deriving DecidableEq

/-- `analyzeLoopMetadata(loop, features, sampleRate, hopSize)`.  Frame
bounds are `Math.floor(start / frameDuration)` and
`Math.floor(end / frameDuration)`; for negative arguments JS `slice` would
count from the end, so the theorems below assume non-negative loop bounds
(where `Int.toNat` agrees with JS). -/
def analyzeLoopMetadata (lp : LoopPoint) (f : Features) (sampleRate hopSize : ℚ) : LoopMeta :=
  let fd := hopSize / sampleRate
  let sf := (⌊lp.start / fd⌋).toNat
  let ef := (⌊lp.«end» / fd⌋).toNat
  let le := jsSlice f.energy sf ef
  let lh := jsSlice f.harmony sf ef
  let energy :=
    if 0 < le.length then (le.map DEntry.read).sum / (le.length : ℚ) else 1/2
  let harmony :=
    if 0 < lh.length then jsDedupFilter (lh.map headChordLabel) else []
  let psych := calculatePsychologicalDescriptors (jsSlice f.danceability sf ef) le
    (jsSlice f.tempo sf ef) sampleRate hopSize
  { energy := energy, harmony := harmony,
    psychological := ⟨psych.overallValence, psych.overallArousal⟩ }

/-! ### Shared helper lemmas -/

theorem headD_eq_getD (l : List α) (d : α) : l.headD d = l.getD 0 d := by
  cases l <;> rfl

theorem getLastD_eq_getD (l : List α) (d : α) : l.getLastD d = l.getD (l.length - 1) d := by
  rw [List.getLastD_eq_getLast?, List.getLast?_eq_getElem?, List.getD_eq_getElem?_getD]

theorem getD_map_range (f : ℕ → α) {n i : ℕ} (d : α) (h : i < n) :
    ((List.range n).map f).getD i d = f i := by
  rw [List.getD_eq_getElem?_getD, List.getElem?_map, List.getElem?_range h]
  rfl

theorem jsSlice_getElem? (l : List α) (s e i : ℕ) :
    (jsSlice l s e)[i]? = if i < e - s then l[s + i]? else none := by
  unfold jsSlice
  rw [List.getElem?_take, List.getElem?_drop]

theorem jsSlice_length (l : List α) (s e : ℕ) :
    (jsSlice l s e).length = min (e - s) (l.length - s) := by
  unfold jsSlice
  rw [List.length_take, List.length_drop]

theorem jsSlice_getD (l : List α) (s e i : ℕ) (d : α) (h : i < e - s) (h2 : s + i < l.length) :
    (jsSlice l s e).getD i d = l.getD (s + i) d := by
  rw [List.getD_eq_getElem?_getD, List.getD_eq_getElem?_getD, jsSlice_getElem?, if_pos h]

theorem getD_mem_of_lt (l : List α) (i : ℕ) (d : α) (h : i < l.length) : l.getD i d ∈ l := by
  simp only [List.getD_eq_getElem?_getD, List.getElem?_eq_getElem h, Option.getD_some]
  exact List.getElem_mem h

theorem sum_div_length_bounds (l : List ℚ) (a b : ℚ) (h : ∀ x ∈ l, a ≤ x ∧ x ≤ b)
    (hl : l ≠ []) : a ≤ l.sum / (l.length : ℚ) ∧ l.sum / (l.length : ℚ) ≤ b := by
  have hpos : (0 : ℚ) < (l.length : ℚ) := by
    have := List.length_pos.mpr hl
    exact_mod_cast this
  have hub : l.sum ≤ l.length • b := List.sum_le_card_nsmul l b (fun x hx => (h x hx).2)
  have hlb : l.length • a ≤ l.sum := List.card_nsmul_le_sum l a (fun x hx => (h x hx).1)
  rw [nsmul_eq_mul] at hub hlb
  constructor
  · rw [le_div_iff₀ hpos]
    linarith
  · rw [div_le_iff₀ hpos]
    linarith

/-! ### Concrete instruments shared by the theorems below -/

/-- A concrete stand-in for `Math.sqrt` satisfying the comparison law
`0 ≤ s → (sqrtW s < 1/10 ↔ s < 1/100)`; used to instantiate the `sqrt`
parameter on concrete inputs. -/
def sqrtW (q : ℚ) : ℚ := if q < 1/100 then 0 else 1

theorem sqrtW_lt_iff : ∀ s : ℚ, 0 ≤ s → (sqrtW s < 1/10 ↔ s < 1/100) := by
  intro s _
  unfold sqrtW
  by_cases h : s < 1/100
  · rw [if_pos h]
    constructor
    · intro _; exact h
    · intro _; norm_num
  · rw [if_neg h]
    constructor
    · intro h2; norm_num at h2
    · intro h2; exact absurd h2 h

/-- Default `SongSection`, the (never reached) fallback of in-range indexing. -/
def dummySection : SongSection := ⟨"", 0, 0, 0, ⟨0, 0, 0⟩⟩

/-- Default `TrajPoint`, the (never reached) fallback of in-range indexing. -/
def dummyTraj : TrajPoint := ⟨0, 0, 0⟩

/-! ### C2 — loop points -/

/-- C2 counterexample input: five evenly spaced beats and a late outlier, so
the average interval is `2` and the single 4-beat loop ends at `8`, which is
not a beat time. -/
def beatsC2 : List ℚ := [0, 1, 2, 3, 4, 10]

/-- **C2, counterexample.**  The claim asserts every emitted loop has
beat-aligned start *and end*.  On `beatsC2` with requested length `4` the
single loop ends at `8 = beats[0] + 4 * avgBeatInterval`, and `8` is not a
beat time, so the end is not beat-aligned. -/
theorem C2_counterexample :
    ¬ (∀ lp ∈ generateLoopPoints beatsC2 [4],
        lp.start ∈ beatsC2 ∧ lp.«end» ∈ beatsC2) := by
  decide

/-- **C2, amended.**  For every beats array and positive requested lengths,
each loop emitted by `generateLoopPoints` starts at a beat index that is a
multiple of its length `L`, has a beat-aligned start `beats[startBeat]`, has
`end = start + L * avgBeatInterval ≤ ` the last beat time, and spans
`startBeat + L < beats.length`.  (The claim's further conjunct that the *end*
is beat-aligned is dropped — see `C2_counterexample`.) -/
theorem C2_amended (beats : List ℚ) (loopLengths : List ℕ)
    (hL : ∀ L ∈ loopLengths, 1 ≤ L) :
    ∀ lp ∈ generateLoopPoints beats loopLengths,
      lp.length ∈ loopLengths ∧
      lp.startBeat % lp.length = 0 ∧
      lp.startBeat + lp.length < beats.length ∧
      lp.start = beats.getD lp.startBeat 0 ∧
      lp.start ∈ beats ∧
      lp.«end» = lp.start + (lp.length : ℚ) * avgBeatInterval beats ∧
      lp.«end» ≤ beats.getLastD 0 ∧
      lp.endBeat = lp.startBeat + lp.length := by
  intro lp hlp
  unfold generateLoopPoints at hlp
  split at hlp
  · exact absurd hlp (List.not_mem_nil _)
  · rw [List.mem_flatMap] at hlp
    obtain ⟨L, hLmem, hlp⟩ := hlp
    dsimp only at hlp
    rw [List.mem_filterMap] at hlp
    obtain ⟨i, hi, heq⟩ := hlp
    rw [List.mem_filter, List.mem_range] at hi
    obtain ⟨hiR, hiM⟩ := hi
    have hiM2 : i % L = 0 := of_decide_eq_true hiM
    split at heq
    · rename_i hle
      cases heq
      dsimp only
      have hilt : i < beats.length := by omega
      refine ⟨hLmem, hiM2, by omega, rfl, ?_, rfl, hle, rfl⟩
      exact getD_mem_of_lt beats i 0 hilt
    · cases heq

/-- **C2, witness.**  The amended theorem applied to the spec's own example
input: beats `[0, 0.5, …, 3.5]`, lengths `[4]`. -/
theorem C2_witness :
    (∀ L ∈ ([4] : List ℕ), 1 ≤ L) ∧
    (∀ lp ∈ generateLoopPoints [0, 1/2, 1, 3/2, 2, 5/2, 3, 7/2] [4],
      lp.length ∈ ([4] : List ℕ) ∧
      lp.startBeat % lp.length = 0 ∧
      lp.startBeat + lp.length < ([0, 1/2, 1, 3/2, 2, 5/2, 3, 7/2] : List ℚ).length ∧
      lp.start = ([0, 1/2, 1, 3/2, 2, 5/2, 3, 7/2] : List ℚ).getD lp.startBeat 0 ∧
      lp.start ∈ ([0, 1/2, 1, 3/2, 2, 5/2, 3, 7/2] : List ℚ) ∧
      lp.«end» = lp.start + (lp.length : ℚ) * avgBeatInterval [0, 1/2, 1, 3/2, 2, 5/2, 3, 7/2] ∧
      lp.«end» ≤ ([0, 1/2, 1, 3/2, 2, 5/2, 3, 7/2] : List ℚ).getLastD 0 ∧
      lp.endBeat = lp.startBeat + lp.length) :=
  ⟨by decide, C2_amended [0, 1/2, 1, 3/2, 2, 5/2, 3, 7/2] [4] (by decide)⟩

/-! ### C4 / C5 — psychological descriptors -/

/-- **C4, confirmed.**  For every frame `i` below the longest of the three
series, the emotional-trajectory entry has
`valence = clamp01(danceability[i] or 0.5)` (the `or`-fallback read is
`dEntryAt`) and `arousal = 0.6 * energy[i] + 0.4 * min(1, tempo[i]/200)`
with a missing energy value defaulting to `0.5` and a missing tempo value to
`120` (`dEntryAt` / `tempoAt`); the trajectory has exactly one entry per
frame. -/
theorem C4_trajectory_formula (d e : List DEntry) (t : List TEntry) (sr hop : ℚ) (i : ℕ)
    (hi : i < max (max d.length e.length) t.length) :
    ((calculatePsychologicalDescriptors d e t sr hop).emotionalTrajectory).length
        = max (max d.length e.length) t.length ∧
    (((calculatePsychologicalDescriptors d e t sr hop).emotionalTrajectory).getD i
        dummyTraj).valence = clamp01 (dEntryAt d i) ∧
    (((calculatePsychologicalDescriptors d e t sr hop).emotionalTrajectory).getD i
        dummyTraj).arousal
        = (6/10) * dEntryAt e i + (4/10) * min 1 (tempoAt t i / 200) := by
  unfold calculatePsychologicalDescriptors
  dsimp only
  refine ⟨by simp, ?_, ?_⟩
  · rw [getD_map_range _ dummyTraj hi]
    rfl
  · rw [getD_map_range _ dummyTraj hi]
    unfold trajPointAt
    dsimp only
    ring

/-- **C4, witness.**  The formula at frame `0` of a one-entry danceability
series. -/
theorem C4_witness :
    (0 < max (max [DEntry.num 1].length ([] : List DEntry).length) ([] : List TEntry).length) ∧
    (((calculatePsychologicalDescriptors [DEntry.num 1] [] [] 44100 512).emotionalTrajectory).length
        = max (max [DEntry.num 1].length ([] : List DEntry).length) ([] : List TEntry).length ∧
    (((calculatePsychologicalDescriptors [DEntry.num 1] [] [] 44100 512).emotionalTrajectory).getD 0
        dummyTraj).valence = clamp01 (dEntryAt [DEntry.num 1] 0) ∧
    (((calculatePsychologicalDescriptors [DEntry.num 1] [] [] 44100 512).emotionalTrajectory).getD 0
        dummyTraj).arousal
        = (6/10) * dEntryAt ([] : List DEntry) 0 + (4/10) * min 1 (tempoAt ([] : List TEntry) 0 / 200)) :=
  ⟨by decide, C4_trajectory_formula [DEntry.num 1] [] [] 44100 512 0 (by decide)⟩

/-- **C5, counterexample.**  The claim asserts `overallArousal ∈ [0,1]` for
*every* input; an energy value of `5` (the engine never clamps energy) gives
`overallArousal = 0.6*5 + 0.4*min(1, 120/200) = 3.24 > 1`. -/
theorem C5_counterexample :
    ¬ (0 ≤ (calculatePsychologicalDescriptors [DEntry.num 1] [DEntry.num 5] [] 44100 512).overallArousal ∧
       (calculatePsychologicalDescriptors [DEntry.num 1] [DEntry.num 5] [] 44100 512).overallArousal ≤ 1) := by
  decide

theorem clamp01_bounds (q : ℚ) : 0 ≤ clamp01 q ∧ clamp01 q ≤ 1 := by
  unfold clamp01
  constructor
  · exact le_min (by norm_num) (le_max_left 0 q)
  · exact min_le_left 1 _

theorem dEntryAt_bounds (e : List DEntry) (hE : ∀ x ∈ e, 0 ≤ x.read ∧ x.read ≤ 1) (i : ℕ) :
    0 ≤ dEntryAt e i ∧ dEntryAt e i ≤ 1 := by
  unfold dEntryAt
  cases h : e.get? i with
  | none => norm_num
  | some x =>
    have hx : x ∈ e := List.get?_mem h
    by_cases ht : x.truthy
    · simpa [ht] using hE x hx
    · simp [ht]
      norm_num

theorem tempoAt_nonneg (t : List TEntry) (hT : ∀ x ∈ t, 0 ≤ x.read) (i : ℕ) :
    0 ≤ tempoAt t i := by
  unfold tempoAt
  cases h : t.get? i with
  | none => norm_num
  | some x =>
    have hx : x ∈ t := List.get?_mem h
    by_cases ht : x.truthy
    · simpa [ht] using hT x hx
    · simp [ht]

theorem trajPointAt_bounds (d e : List DEntry) (t : List TEntry) (fd : ℚ) (i : ℕ)
    (hE : ∀ x ∈ e, 0 ≤ x.read ∧ x.read ≤ 1) (hT : ∀ x ∈ t, 0 ≤ x.read) :
    (0 ≤ (trajPointAt d e t fd i).valence ∧ (trajPointAt d e t fd i).valence ≤ 1) ∧
    (0 ≤ (trajPointAt d e t fd i).arousal ∧ (trajPointAt d e t fd i).arousal ≤ 1) := by
  unfold trajPointAt
  dsimp only
  refine ⟨clamp01_bounds _, ?_, ?_⟩
  · have he := dEntryAt_bounds e hE i
    have hnt : 0 ≤ min 1 (tempoAt t i / 200) :=
      le_min (by norm_num) (div_nonneg (tempoAt_nonneg t hT i) (by norm_num))
    nlinarith [he.1, hnt]
  · have he := dEntryAt_bounds e hE i
    have hnt : min 1 (tempoAt t i / 200) ≤ 1 := min_le_left 1 _
    have hnt0 : 0 ≤ min 1 (tempoAt t i / 200) :=
      le_min (by norm_num) (div_nonneg (tempoAt_nonneg t hT i) (by norm_num))
    nlinarith [he.1, he.2]

theorem meanOrHalf_bounds (tl : List TrajPoint) (f : TrajPoint → ℚ)
    (hf : ∀ tp ∈ tl, 0 ≤ f tp ∧ f tp ≤ 1) :
    0 ≤ (if 0 < tl.length then (tl.map f).sum / (tl.length : ℚ) else 1/2) ∧
      (if 0 < tl.length then (tl.map f).sum / (tl.length : ℚ) else 1/2) ≤ 1 := by
  split
  · rename_i h
    have hlen : tl.length = (tl.map f).length := (List.length_map _ _).symm
    rw [hlen]
    apply sum_div_length_bounds
    · intro x hx
      rw [List.mem_map] at hx
      obtain ⟨tp, htp, rfl⟩ := hx
      exact hf tp htp
    · intro hnil
      rw [← List.length_eq_zero, ← hlen] at hnil
      omega
  · norm_num

/-- **C5, amended.**  `overallValence ∈ [0,1]` holds for every input;
`overallArousal ∈ [0,1]` holds provided every energy entry reads a value in
`[0,1]` and every tempo entry reads a non-negative value (the engine applies
no clamp to arousal, see `C5_counterexample`). -/
theorem C5_overall_bounds (d e : List DEntry) (t : List TEntry) (sr hop : ℚ)
    (hE : ∀ x ∈ e, 0 ≤ x.read ∧ x.read ≤ 1) (hT : ∀ x ∈ t, 0 ≤ x.read) :
    (0 ≤ (calculatePsychologicalDescriptors d e t sr hop).overallValence ∧
      (calculatePsychologicalDescriptors d e t sr hop).overallValence ≤ 1) ∧
    (0 ≤ (calculatePsychologicalDescriptors d e t sr hop).overallArousal ∧
      (calculatePsychologicalDescriptors d e t sr hop).overallArousal ≤ 1) := by
  unfold calculatePsychologicalDescriptors
  dsimp only
  constructor
  · apply meanOrHalf_bounds
    intro tp htp
    rw [List.mem_map] at htp
    obtain ⟨j, _, rfl⟩ := htp
    exact (trajPointAt_bounds d e t (hop / sr) j hE hT).1
  · apply meanOrHalf_bounds
    intro tp htp
    rw [List.mem_map] at htp
    obtain ⟨j, _, rfl⟩ := htp
    exact (trajPointAt_bounds d e t (hop / sr) j hE hT).2

/-- **C5, witness.**  The amended bounds on a small in-range input. -/
theorem C5_witness :
    (∀ x ∈ [DEntry.num (1/2), DEntry.obj (some 1)], 0 ≤ x.read ∧ x.read ≤ 1) ∧
    (∀ x ∈ [TEntry.obj (some 100)], 0 ≤ x.read) ∧
    ((0 ≤ (calculatePsychologicalDescriptors [DEntry.num 1] [DEntry.num (1/2), DEntry.obj (some 1)]
          [TEntry.obj (some 100)] 44100 512).overallValence ∧
      (calculatePsychologicalDescriptors [DEntry.num 1] [DEntry.num (1/2), DEntry.obj (some 1)]
          [TEntry.obj (some 100)] 44100 512).overallValence ≤ 1) ∧
    (0 ≤ (calculatePsychologicalDescriptors [DEntry.num 1] [DEntry.num (1/2), DEntry.obj (some 1)]
          [TEntry.obj (some 100)] 44100 512).overallArousal ∧
      (calculatePsychologicalDescriptors [DEntry.num 1] [DEntry.num (1/2), DEntry.obj (some 1)]
          [TEntry.obj (some 100)] 44100 512).overallArousal ≤ 1)) :=
  ⟨by decide, by decide,
    C5_overall_bounds [DEntry.num 1] [DEntry.num (1/2), DEntry.obj (some 1)]
      [TEntry.obj (some 100)] 44100 512 (by decide) (by decide)⟩

/-! ### C6 — story-arc tension -/

/-- The tension curve as the spec describes it (amended): one point per frame
carrying a `pitch` array, at time `i * frameDuration`, with value the
variance of the frame's positive pitch values. -/
def tensionSpec (mel : List Frame) (fd : ℚ) : List TPoint :=
  (List.range mel.length).filterMap (fun i =>
    ((mel.getD i ⟨none, none⟩).pitch).map (fun p =>
      ⟨(i : ℚ) * fd, calculateVariance (p.filter (fun x => decide (0 < x)))⟩))

theorem foldl_push_filterMap (F : ℕ → Option (List ℚ)) (G : ℕ → List ℚ → TPoint) :
    ∀ (l : List ℕ) (acc : List TPoint),
      l.foldl (fun acc i =>
        match F i with
        | some p => acc ++ [G i p]
        | none => acc) acc
        = acc ++ l.filterMap (fun i => (F i).map (G i)) := by
  intro l
  induction l with
  | nil => intro acc; simp
  | cons x xs ih =>
    intro acc
    rw [List.foldl_cons, List.filterMap_cons]
    cases hF : F x with
    | none => simp only [hF, Option.map_none']; exact ih acc
    | some p =>
      simp only [hF, Option.map_some']
      rw [ih (acc ++ [G x p])]
      simp

/-- **C6, counterexample.**  The claim asserts a frame whose pitch array has
no positive values contributes *no* tension point; the frame `{pitch: [0]}`
has no positive pitch values, yet the engine pushes a tension point (of
value 0) for it. -/
theorem C6_counterexample :
    (analyzeStoryArc [⟨some [(0 : ℚ)], none⟩] [] 1 1).tension = [⟨0, 0⟩] ∧
    ([(0 : ℚ)].filter (fun x => decide (0 < x))) = [] := by
  constructor
  · rfl
  · rfl

/-- **C6, amended.**  The tension curve contains exactly one point per frame
*carrying a pitch array* (even one with no positive values, whose point has
value `0`), with value the variance of the frame's positive pitch values and
time `frameIndex * frameDuration`; frames lacking a pitch array contribute
no point. -/
theorem C6_tension_spec (mel ch : List Frame) (sr hop : ℚ) :
    (analyzeStoryArc mel ch sr hop).tension = tensionSpec mel (hop / sr) := by
  unfold analyzeStoryArc tensionSpec
  dsimp only
  rw [foldl_push_filterMap (fun i => (mel.getD i ⟨none, none⟩).pitch)
    (fun i p => ⟨(i : ℚ) * (hop / sr), calculateVariance (p.filter (fun x => decide (0 < x)))⟩)
    (List.range mel.length) []]
  simp

/-! ### C8 — insufficient-data degradation -/

/-- **C8, confirmed.**  Empty or too-short input degrades to empty
collections or the documented defaults: fewer than 2 beats give no loops, an
empty energy series gives no sections, empty melody/chords give no motifs
and no quotes, an empty melody gives an empty story arc with narrative
`"unknown"`, and all-empty psychological input gives the `0.5/0.5` defaults
with empty trajectory and shifts. -/
theorem C8_insufficient_data (beats : List ℚ) (lens : List ℕ) (hb : beats.length < 2)
    (sqrt : ℚ → ℚ) (f : Features) (hf : f.energy = []) (m : ℕ) (ch : List Frame)
    (sr hop : ℚ) :
    generateLoopPoints beats lens = [] ∧
    detectSongSections sqrt f sr hop = [] ∧
    extractMotifs sqrt [] [] m = [] ∧
    detectQuotes [] [] = [] ∧
    analyzeStoryArc [] ch sr hop = ⟨[], [], "unknown"⟩ ∧
    calculatePsychologicalDescriptors [] [] [] sr hop = ⟨1/2, 1/2, [], []⟩ := by
  refine ⟨?_, ?_, rfl, rfl, rfl, rfl⟩
  · unfold generateLoopPoints
    rw [if_pos hb]
  · unfold detectSongSections
    rw [if_pos (by rw [hf]; rfl)]

/-- **C8, witness.**  The degradation at a one-beat input and an
energy-free feature record. -/
theorem C8_witness :
    (([(0 : ℚ)] : List ℚ).length < 2) ∧
    (generateLoopPoints [(0 : ℚ)] [4] = [] ∧
    detectSongSections sqrtW ⟨[], [], [], [], [], []⟩ 44100 512 = [] ∧
    extractMotifs sqrtW [] [] 2 = [] ∧
    detectQuotes [] [] = [] ∧
    analyzeStoryArc [] [] 44100 512 = ⟨[], [], "unknown"⟩ ∧
    calculatePsychologicalDescriptors [] [] [] 44100 512 = ⟨1/2, 1/2, [], []⟩) :=
  ⟨by decide, C8_insufficient_data [(0 : ℚ)] [4] (by decide) sqrtW ⟨[], [], [], [], [], []⟩
    rfl 2 [] 44100 512⟩

/-! ### C9 — loop harmony labels -/

/-- First-occurrence de-duplication, written the way the (amended) claim
reads: keep an element iff it has not been seen before. -/
def dedupFirstAux : List String → List String → List String
  | [], _ => []
  | x :: xs, seen => if x ∈ seen then dedupFirstAux xs seen else x :: dedupFirstAux xs (x :: seen)

/-- First-occurrence de-duplication of a list of labels. -/
def dedupFirst (l : List String) : List String := dedupFirstAux l []

theorem dedupFirstAux_eq (l : List String) : ∀ (pre seen : List String),
    (∀ y, y ∈ seen ↔ y ∈ pre) →
    ((List.enumFrom pre.length l).filter
        (fun pr => decide ((pre ++ l).indexOf pr.2 = pr.1))).map (·.2)
      = dedupFirstAux l seen := by
  induction l with
  | nil => intro pre seen _; rfl
  | cons x xs ih =>
    intro pre seen hseen
    have hassoc : pre ++ x :: xs = (pre ++ [x]) ++ xs := by simp
    rw [List.enumFrom_cons]
    by_cases hx : x ∈ pre
    · have hidx : ¬ ((pre ++ x :: xs).indexOf x = pre.length) := by
        have h1 : (pre ++ x :: xs).indexOf x = pre.indexOf x := List.indexOf_append_of_mem hx
        have h2 : pre.indexOf x < pre.length := List.indexOf_lt_length.mpr hx
        omega
      rw [List.filter_cons_of_neg (by simpa using hidx)]
      have haux : dedupFirstAux (x :: xs) seen = dedupFirstAux xs seen := by
        simp only [dedupFirstAux]
        rw [if_pos ((hseen x).mpr hx)]
      rw [haux]
      have hseen2 : ∀ y, y ∈ seen ↔ y ∈ pre ++ [x] := by
        intro y
        rw [hseen y]
        constructor
        · intro h; exact List.mem_append_left _ h
        · intro h
          rcases List.mem_append.mp h with h | h
          · exact h
          · rw [List.mem_singleton] at h
            rw [h]
            exact hx
      have ih2 := ih (pre ++ [x]) seen hseen2
      rw [← hassoc] at ih2
      simpa [List.length_append] using ih2
    · have hidx : (pre ++ x :: xs).indexOf x = pre.length := by
        rw [List.indexOf_append_of_not_mem hx, List.indexOf_cons_self]
        exact Nat.add_zero _
      rw [List.filter_cons_of_pos (by simpa using hidx)]
      have haux : dedupFirstAux (x :: xs) seen = x :: dedupFirstAux xs (x :: seen) := by
        simp only [dedupFirstAux]
        rw [if_neg (fun h => hx ((hseen x).mp h))]
      rw [haux]
      have hseen2 : ∀ y, y ∈ x :: seen ↔ y ∈ pre ++ [x] := by
        intro y
        rw [List.mem_cons, hseen y, List.mem_append, List.mem_singleton, or_comm]
      have ih2 := ih (pre ++ [x]) (x :: seen) hseen2
      rw [← hassoc] at ih2
      simp only [List.length_append, List.length_singleton] at ih2
      rw [List.map_cons]
      rw [← ih2]

theorem jsDedupFilter_eq_dedupFirst (l : List String) : jsDedupFilter l = dedupFirst l := by
  unfold jsDedupFilter dedupFirst
  have := dedupFirstAux_eq l [] [] (by simp)
  simpa [List.enum_eq_enumFrom] using this

/-- **C9, amended.**  The `harmony` field of `analyzeLoopMetadata` is the
first-occurrence de-duplication of the per-frame *first* chord label
(`h.chords?.[0] || 'unknown'`) over the loop's `[start, end)` frame slice —
not of all chord labels present (see `C9_counterexample`). -/
theorem C9_harmony (lp : LoopPoint) (f : Features) (sr hop : ℚ) :
    (analyzeLoopMetadata lp f sr hop).harmony
      = dedupFirst ((jsSlice f.harmony (⌊lp.start / (hop / sr)⌋).toNat
          (⌊lp.«end» / (hop / sr)⌋).toNat).map headChordLabel) := by
  unfold analyzeLoopMetadata
  dsimp only
  split
  · exact jsDedupFilter_eq_dedupFirst _
  · rename_i hlen
    have : jsSlice f.harmony (⌊lp.start / (hop / sr)⌋).toNat (⌊lp.«end» / (hop / sr)⌋).toNat = [] := by
      rcases h : jsSlice f.harmony (⌊lp.start / (hop / sr)⌋).toNat (⌊lp.«end» / (hop / sr)⌋).toNat with _ | ⟨a, l⟩
      · rfl
      · rw [h] at hlen
        simp at hlen
    rw [this]
    rfl

/-- The claim-side reading: the de-duplicated, first-occurrence-ordered list
of *all* distinct chord labels present in a run of harmony frames. -/
def chordLabelsPresent (frames : List Frame) : List String :=
  dedupFirst (frames.flatMap (fun fr => fr.chords.getD []))

/-- C9 counterexample input: one harmony frame carrying two chord labels. -/
def featC9 : Features :=
  { energy := [], tempo := [], harmony := [⟨none, some ["C", "G"]⟩], timbre := [],
    danceability := [], melody := [] }

/-- **C9, counterexample.**  For a loop covering one frame with
`chords = ["C", "G"]`, the engine returns `harmony = ["C"]` (only the first
label per frame), not the claimed list `["C", "G"]` of all distinct labels
present. -/
theorem C9_counterexample :
    (analyzeLoopMetadata ⟨"loop-4-0", 0, 1, 4, "4-beat", 0, 4⟩ featC9 1 1).harmony
      ≠ chordLabelsPresent (jsSlice featC9.harmony 0 1) := by
  decide

/-! ### Pattern-miner grouping lemmas (C3, C7, C10) -/

theorem findGroup_upsert_self (gs : List (List PatElem × List ℕ)) (key : List PatElem) (i : ℕ) :
    findGroup (upsert gs key i) key = some ((findGroup gs key).getD [] ++ [i]) := by
  induction gs with
  | nil => simp [upsert, findGroup]
  | cons g rest ih =>
    obtain ⟨k, o⟩ := g
    by_cases hk : k = key
    · subst hk
      simp [upsert, findGroup]
    · simp [upsert, findGroup, hk, ih]

theorem findGroup_upsert_ne (gs : List (List PatElem × List ℕ)) (key : List PatElem) (i : ℕ)
    (key2 : List PatElem) (h : key2 ≠ key) :
    findGroup (upsert gs key i) key2 = findGroup gs key2 := by
  induction gs with
  | nil => simp [upsert, findGroup, Ne.symm h]
  | cons g rest ih =>
    obtain ⟨k, o⟩ := g
    by_cases hk : k = key
    · subst hk
      simp [upsert, findGroup, Ne.symm h]
    · simp [upsert, findGroup, hk, ih]

theorem findGroup_foldl_some (features : List Frame) (k : ℕ) (t : PType) (is : List ℕ) :
    ∀ (gs : List (List PatElem × List ℕ)) (key : List PatElem) (o : List ℕ),
      findGroup gs key = some o →
      findGroup (is.foldl (minerStep features k t) gs) key
        = some (o ++ is.filter (fun i => decide (extractPattern features i k t = key))) := by
  induction is with
  | nil => intro gs key o h; simpa using h
  | cons j js ih =>
    intro gs key o h
    rw [List.foldl_cons, List.filter_cons]
    by_cases hj : extractPattern features j k t = key
    · rw [if_pos (by simpa using hj)]
      have h2 : findGroup (minerStep features k t gs j) key = some (o ++ [j]) := by
        unfold minerStep
        rw [hj, findGroup_upsert_self, h]
        rfl
      rw [ih _ key (o ++ [j]) h2]
      simp
    · rw [if_neg (by simpa using hj)]
      have h2 : findGroup (minerStep features k t gs j) key = some o := by
        unfold minerStep
        rw [findGroup_upsert_ne _ _ _ _ (fun he => hj he.symm)]
        exact h
      exact ih _ key o h2

theorem findGroup_foldl_none (features : List Frame) (k : ℕ) (t : PType) (is : List ℕ) :
    ∀ (gs : List (List PatElem × List ℕ)) (key : List PatElem),
      findGroup gs key = none →
      findGroup (is.foldl (minerStep features k t) gs) key
        = if (is.filter (fun i => decide (extractPattern features i k t = key))) = []
          then none
          else some (is.filter (fun i => decide (extractPattern features i k t = key))) := by
  induction is with
  | nil => intro gs key h; simpa using h
  | cons j js ih =>
    intro gs key h
    rw [List.foldl_cons]
    by_cases hj : extractPattern features j k t = key
    · rw [List.filter_cons_of_pos (by simpa using hj)]
      have h2 : findGroup (minerStep features k t gs j) key = some [j] := by
        unfold minerStep
        rw [hj, findGroup_upsert_self, h]
        rfl
      rw [findGroup_foldl_some features k t js _ key [j] h2]
      rw [if_neg (List.cons_ne_nil _ _)]
      simp
    · rw [List.filter_cons_of_neg (by simpa using hj)]
      have h2 : findGroup (minerStep features k t gs j) key = none := by
        unfold minerStep
        rw [findGroup_upsert_ne _ _ _ _ (fun he => hj he.symm)]
        exact h
      exact ih _ key h2

theorem findGroup_eq_none_iff (gs : List (List PatElem × List ℕ)) (key : List PatElem) :
    findGroup gs key = none ↔ key ∉ gs.map Prod.fst := by
  induction gs with
  | nil => simp [findGroup]
  | cons g rest ih =>
    obtain ⟨k, o⟩ := g
    by_cases hk : k = key
    · subst hk
      simp [findGroup]
    · simp [findGroup, hk, ih, Ne.symm hk]

theorem keys_upsert_sub (gs : List (List PatElem × List ℕ)) (key : List PatElem) (i : ℕ) :
    ∀ x ∈ (upsert gs key i).map Prod.fst, x ∈ gs.map Prod.fst ∨ x = key := by
  induction gs with
  | nil => simp [upsert]
  | cons g rest ih =>
    obtain ⟨k, o⟩ := g
    by_cases hk : k = key
    · subst hk
      rw [upsert, if_pos rfl]
      intro x hx
      rw [List.map_cons, List.mem_cons] at hx
      rcases hx with hx | hx
      · right; exact hx
      · left
        rw [List.map_cons, List.mem_cons]
        right
        exact hx
    · intro x hx
      rw [upsert] at hx
      rw [if_neg hk] at hx
      rw [List.map_cons, List.mem_cons] at hx
      rcases hx with hx | hx
      · left; simp [hx]
      · rcases ih x hx with h | h
        · left; simp [h]
        · right; exact h

theorem nodup_keys_upsert (gs : List (List PatElem × List ℕ)) (key : List PatElem) (i : ℕ)
    (h : (gs.map Prod.fst).Nodup) : ((upsert gs key i).map Prod.fst).Nodup := by
  induction gs with
  | nil => simp [upsert]
  | cons g rest ih =>
    obtain ⟨k, o⟩ := g
    rw [List.map_cons, List.nodup_cons] at h
    obtain ⟨hknot, hrest⟩ := h
    by_cases hk : k = key
    · subst hk
      rw [upsert, if_pos rfl, List.map_cons, List.nodup_cons]
      exact ⟨hknot, hrest⟩
    · rw [upsert, if_neg hk, List.map_cons, List.nodup_cons]
      refine ⟨?_, ih hrest⟩
      intro hmem
      rcases keys_upsert_sub rest key i k hmem with h | h
      · exact hknot h
      · exact hk h

theorem nodup_keys_foldl (features : List Frame) (k : ℕ) (t : PType) (is : List ℕ) :
    ∀ gs : List (List PatElem × List ℕ), (gs.map Prod.fst).Nodup →
      ((is.foldl (minerStep features k t) gs).map Prod.fst).Nodup := by
  induction is with
  | nil => intro gs h; exact h
  | cons j js ih =>
    intro gs h
    rw [List.foldl_cons]
    exact ih _ (nodup_keys_upsert gs _ j h)

theorem findGroup_of_mem_nodup (gs : List (List PatElem × List ℕ))
    (h : (gs.map Prod.fst).Nodup) :
    ∀ p ∈ gs, findGroup gs p.1 = some p.2 := by
  induction gs with
  | nil => intro p hp; exact absurd hp (List.not_mem_nil p)
  | cons g rest ih =>
    obtain ⟨k, o⟩ := g
    rw [List.map_cons, List.nodup_cons] at h
    obtain ⟨hknot, hrest⟩ := h
    intro p hp
    rw [List.mem_cons] at hp
    rcases hp with hp | hp
    · subst hp
      simp [findGroup]
    · have hne : k ≠ p.1 := by
        intro he
        apply hknot
        rw [he]
        exact List.mem_map.mpr ⟨p, hp, rfl⟩
      rw [findGroup, if_neg hne]
      exact ih hrest p hp

theorem findGroup_mem (gs : List (List PatElem × List ℕ)) (key : List PatElem) (o : List ℕ)
    (h : findGroup gs key = some o) : (key, o) ∈ gs := by
  induction gs with
  | nil => simp [findGroup] at h
  | cons g rest ih =>
    obtain ⟨k, o2⟩ := g
    by_cases hk : k = key
    · subst hk
      rw [findGroup, if_pos rfl] at h
      cases h
      exact List.mem_cons_self _ _
    · rw [findGroup, if_neg hk] at h
      exact List.mem_cons_of_mem _ (ih h)

/-- Every group collected by the miner holds exactly the window indices whose
canonical pattern equals its key. -/
theorem collectGroups_occ (features : List Frame) (k : ℕ) (t : PType) :
    ∀ g ∈ collectGroups features k t,
      g.2 = (List.range (features.length - k)).filter
        (fun i => decide (extractPattern features i k t = g.1)) := by
  intro g hg
  have hnd : ((collectGroups features k t).map Prod.fst).Nodup := by
    unfold collectGroups
    exact nodup_keys_foldl features k t _ [] (by simp)
  have h1 : findGroup (collectGroups features k t) g.1 = some g.2 :=
    findGroup_of_mem_nodup _ hnd g hg
  have h2 := findGroup_foldl_none features k t (List.range (features.length - k)) [] g.1 rfl
  rw [show (List.range (features.length - k)).foldl (minerStep features k t) []
      = collectGroups features k t from rfl] at h2
  rw [h1] at h2
  split at h2
  · simp at h2
  · exact Option.some.inj h2

/-- Conversely, every canonical pattern occurring at some window index is a
collected group, holding exactly its matching indices. -/
theorem collectGroups_complete (features : List Frame) (k : ℕ) (t : PType)
    (key : List PatElem)
    (hne : (List.range (features.length - k)).filter
      (fun i => decide (extractPattern features i k t = key)) ≠ []) :
    (key, (List.range (features.length - k)).filter
      (fun i => decide (extractPattern features i k t = key))) ∈ collectGroups features k t := by
  have h2 := findGroup_foldl_none features k t (List.range (features.length - k)) [] key rfl
  rw [if_neg hne] at h2
  exact findGroup_mem _ _ _ h2

/-- Anatomy of a motif returned by `findRepeatingPatterns`: it is built from
a collected group with at least `minOccurrences` indices. -/
theorem findRepeatingPatterns_mem_spec (sqrt : ℚ → ℚ) (features : List Frame) (t : PType)
    (m : ℕ) :
    ∀ mo ∈ findRepeatingPatterns sqrt features t m,
      ∃ g ∈ collectGroups features 4 t,
        m ≤ g.2.length ∧ mo.type = t ∧ mo.pattern = g.1 ∧
        mo.occurrences = g.2.map (fun i => (i, i + 4)) ∧
        mo.evolution = detectPatternEvolution sqrt g.1 g.2 features := by
  intro mo hmo
  unfold findRepeatingPatterns at hmo
  rw [List.mem_map] at hmo
  obtain ⟨idx, hidx, rfl⟩ := hmo
  rw [List.mem_range] at hidx
  have hg : ((collectGroups features 4 t).filter
      (fun g => decide (m ≤ g.2.length))).getD idx ([], [])
      ∈ (collectGroups features 4 t).filter (fun g => decide (m ≤ g.2.length)) :=
    getD_mem_of_lt _ _ _ hidx
  rw [List.mem_filter] at hg
  exact ⟨_, hg.1, by simpa using hg.2, rfl, rfl, rfl, rfl⟩

/-- Conversely, every collected group with enough indices yields a motif. -/
theorem findRepeatingPatterns_complete (sqrt : ℚ → ℚ) (features : List Frame) (t : PType)
    (m : ℕ) (g : List PatElem × List ℕ) (hg : g ∈ collectGroups features 4 t)
    (hlen : m ≤ g.2.length) :
    ∃ mo ∈ findRepeatingPatterns sqrt features t m,
      mo.pattern = g.1 ∧ mo.occurrences = g.2.map (fun i => (i, i + 4)) := by
  have hk : g ∈ (collectGroups features 4 t).filter (fun g => decide (m ≤ g.2.length)) :=
    List.mem_filter.mpr ⟨hg, by simpa using hlen⟩
  obtain ⟨n, hn⟩ := List.mem_iff_get.mp hk
  unfold findRepeatingPatterns
  refine ⟨_, List.mem_map.mpr ⟨n.1, List.mem_range.mpr n.2, rfl⟩, ?_, ?_⟩ <;>
    · dsimp only
      rw [List.getD_eq_getElem _ _ n.2, ← List.get_eq_getElem, hn]

/-- Anatomy of a quote returned by `findQuotes`. -/
theorem findQuotes_mem_spec (features : List Frame) (t : PType) (L : ℕ) :
    ∀ q ∈ findQuotes features t L,
      ∃ g ∈ collectGroups features L t,
        2 ≤ g.2.length ∧ q.type = t ∧
        q.original = (g.2.headD 0, g.2.headD 0 + L) ∧
        q.quoted = g.2.tail.map (fun i => (i, i + L)) := by
  intro q hq
  unfold findQuotes at hq
  rw [List.mem_map] at hq
  obtain ⟨g, hg, rfl⟩ := hq
  rw [List.mem_filter] at hg
  exact ⟨g, hg.1, by simpa using hg.2, rfl, rfl, rfl⟩

/-- Conversely, every collected group with at least two indices yields a
quote. -/
theorem findQuotes_complete (features : List Frame) (t : PType) (L : ℕ)
    (g : List PatElem × List ℕ) (hg : g ∈ collectGroups features L t)
    (hlen : 2 ≤ g.2.length) :
    ∃ q ∈ findQuotes features t L,
      q.original = (g.2.headD 0, g.2.headD 0 + L) ∧
      q.quoted = g.2.tail.map (fun i => (i, i + L)) := by
  unfold findQuotes
  exact ⟨_, List.mem_map.mpr ⟨g, List.mem_filter.mpr ⟨hg, by simpa using hlen⟩, rfl⟩, rfl, rfl⟩

/-! ### C3 — the pattern miner's grouping contract -/

/-- C3 counterexample input: the 4-frame window at index 0 recurs at index 4
(the last full window), and nowhere else. -/
def melC3 : List Frame :=
  [⟨some [1], none⟩, ⟨some [2], none⟩, ⟨some [3], none⟩, ⟨some [4], none⟩,
   ⟨some [1], none⟩, ⟨some [2], none⟩, ⟨some [3], none⟩, ⟨some [4], none⟩]

/-- **C3, counterexample.**  The claim says the miner canonicalizes the
window at *every* index `0..n-k`; the loop actually stops at `n-k-1`.  On
`melC3` (`n = 8`, `k = 4`) the canonical window at index `0` recurs at index
`4 = n-k`, so under the claim the `m = 2` grouping yields a motif — but the
miner returns nothing, because index `4` is never examined. -/
theorem C3_counterexample :
    findRepeatingPatterns sqrtW melC3 .melodic 2 = [] ∧
    2 ≤ ((List.range (melC3.length - 4 + 1)).filter
        (fun i => decide (extractPattern melC3 i 4 .melodic
          = extractPattern melC3 0 4 .melodic))).length := by
  constructor
  · decide
  · decide

/-- **C3, amended.**  The miner canonicalizes the contiguous length-`k`
window at every index `0 ≤ i < n - k` (the final window at `n - k` itself is
*not* examined, see `C3_counterexample`), groups indices by identical
canonical form, and returns exactly the groups with at least `m`
occurrences; `findRepeatingPatterns` (`k = 4`, threshold `m`) and
`findQuotes` (`k = L`, threshold `2`) both follow this contract, so no
returned motif has fewer than `m` occurrences and no quote fewer than `2`. -/
theorem C3_miner (sqrt : ℚ → ℚ) (features : List Frame) (t : PType) (m : ℕ) (hm : 1 ≤ m)
    (L : ℕ) :
    (∀ mo ∈ findRepeatingPatterns sqrt features t m,
        m ≤ mo.occurrences.length ∧
        mo.occurrences = ((List.range (features.length - 4)).filter
            (fun i => decide (extractPattern features i 4 t = mo.pattern))).map
          (fun i => (i, i + 4))) ∧
    (∀ p : List PatElem,
        m ≤ ((List.range (features.length - 4)).filter
            (fun i => decide (extractPattern features i 4 t = p))).length →
        ∃ mo ∈ findRepeatingPatterns sqrt features t m, mo.pattern = p) ∧
    (∀ q ∈ findQuotes features t L,
        2 ≤ q.quoted.length + 1 ∧
        q.original.1 :: q.quoted.map Prod.fst
          = (List.range (features.length - L)).filter
              (fun i => decide (extractPattern features i L t
                = extractPattern features q.original.1 L t))) ∧
    (∀ p : List PatElem,
        2 ≤ ((List.range (features.length - L)).filter
            (fun i => decide (extractPattern features i L t = p))).length →
        ∃ q ∈ findQuotes features t L,
          extractPattern features q.original.1 L t = p) := by
  refine ⟨?_, ?_, ?_, ?_⟩
  · intro mo hmo
    obtain ⟨g, hg, hlen, _, hpat, hocc, _⟩ :=
      findRepeatingPatterns_mem_spec sqrt features t m mo hmo
    have hchar := collectGroups_occ features 4 t g hg
    constructor
    · rw [hocc, List.length_map]
      exact hlen
    · rw [hocc, hchar, hpat]
  · intro p hp
    have hne : (List.range (features.length - 4)).filter
        (fun i => decide (extractPattern features i 4 t = p)) ≠ [] := by
      intro h0
      rw [h0] at hp
      simp at hp
      omega
    obtain ⟨mo, hmo, hpat, _⟩ := findRepeatingPatterns_complete sqrt features t m
      (p, (List.range (features.length - 4)).filter
        (fun i => decide (extractPattern features i 4 t = p)))
      (collectGroups_complete features 4 t p hne) (by simpa using hp)
    exact ⟨mo, hmo, hpat⟩
  · intro q hq
    obtain ⟨g, hg, hlen, _, horig, hquoted⟩ := findQuotes_mem_spec features t L q hq
    have hchar := collectGroups_occ features L t g hg
    obtain ⟨a, tl, hcons⟩ : ∃ a tl, g.2 = a :: tl := by
      cases hg2 : g.2 with
      | nil => rw [hg2] at hlen; simp at hlen
      | cons a tl => exact ⟨a, tl, rfl⟩
    rw [hcons] at hchar
    constructor
    · rw [hquoted, hcons]
      simp only [List.tail_cons, List.length_map]
      rw [hcons] at hlen
      simp only [List.length_cons] at hlen
      omega
    · have hkey : extractPattern features a L t = g.1 := by
        have ha : a ∈ List.filter
            (fun i => decide (extractPattern features i L t = g.1))
            (List.range (features.length - L)) := by
          rw [← hchar]
          exact List.mem_cons_self _ _
        rw [List.mem_filter] at ha
        simpa using ha.2
      rw [horig, hquoted, hcons]
      simp only [List.headD_cons, List.tail_cons, List.map_map]
      have hmm : (Prod.fst ∘ fun i => (i, i + L)) = fun i : ℕ => i := by
        funext i
        rfl
      rw [hmm, List.map_id']
      simp only [hkey]
      exact hchar
  · intro p hp
    have hne : (List.range (features.length - L)).filter
        (fun i => decide (extractPattern features i L t = p)) ≠ [] := by
      intro h0
      rw [h0] at hp
      simp at hp
    obtain ⟨q, hq, horig, _⟩ := findQuotes_complete features t L
      (p, (List.range (features.length - L)).filter
        (fun i => decide (extractPattern features i L t = p)))
      (collectGroups_complete features L t p hne) (by simpa using hp)
    refine ⟨q, hq, ?_⟩
    obtain ⟨a, tl, hcons⟩ : ∃ a tl,
        (List.range (features.length - L)).filter
          (fun i => decide (extractPattern features i L t = p)) = a :: tl := by
      cases hg2 : (List.range (features.length - L)).filter
          (fun i => decide (extractPattern features i L t = p)) with
      | nil => exact absurd hg2 hne
      | cons a tl => exact ⟨a, tl, rfl⟩
    have ha : a ∈ (List.range (features.length - L)).filter
        (fun i => decide (extractPattern features i L t = p)) := by
      rw [hcons]
      exact List.mem_cons_self _ _
    rw [List.mem_filter] at ha
    rw [horig]
    dsimp only
    rw [hcons, List.headD_cons]
    simpa using ha.2

/-- C3 witness input: the window at index 0 recurs at index 4, both within
the examined range `0..4` of this 9-frame melody. -/
def melC3w : List Frame :=
  [⟨some [1], none⟩, ⟨some [2], none⟩, ⟨some [3], none⟩, ⟨some [4], none⟩,
   ⟨some [1], none⟩, ⟨some [2], none⟩, ⟨some [3], none⟩, ⟨some [4], none⟩,
   ⟨some [1], none⟩]

/-- **C3, witness.**  The amended contract instantiated at `melC3w`,
`t = melodic`, `m = 2`, `L = 8`. -/
theorem C3_witness :
    (1 ≤ 2) ∧
    ((∀ mo ∈ findRepeatingPatterns sqrtW melC3w .melodic 2,
        2 ≤ mo.occurrences.length ∧
        mo.occurrences = ((List.range (melC3w.length - 4)).filter
            (fun i => decide (extractPattern melC3w i 4 .melodic = mo.pattern))).map
          (fun i => (i, i + 4))) ∧
    (∀ p : List PatElem,
        2 ≤ ((List.range (melC3w.length - 4)).filter
            (fun i => decide (extractPattern melC3w i 4 .melodic = p))).length →
        ∃ mo ∈ findRepeatingPatterns sqrtW melC3w .melodic 2, mo.pattern = p) ∧
    (∀ q ∈ findQuotes melC3w .melodic 8,
        2 ≤ q.quoted.length + 1 ∧
        q.original.1 :: q.quoted.map Prod.fst
          = (List.range (melC3w.length - 8)).filter
              (fun i => decide (extractPattern melC3w i 8 .melodic
                = extractPattern melC3w q.original.1 8 .melodic))) ∧
    (∀ p : List PatElem,
        2 ≤ ((List.range (melC3w.length - 8)).filter
            (fun i => decide (extractPattern melC3w i 8 .melodic = p))).length →
        ∃ q ∈ findQuotes melC3w .melodic 8,
          extractPattern melC3w q.original.1 8 .melodic = p)) :=
  ⟨by decide, C3_miner sqrtW melC3w .melodic 2 (by decide) 8⟩

/-! ### C7 / C10 — motif evolution -/

/-- The `sqrt`-free form of `matchElem`: the `Math.sqrt(s) < 0.1` comparison
replaced by the equivalent `s < 0.01` (both sides non-negative). -/
def matchElemSq : PatElem → PatElem → Bool
  | .inl a, .inl b => if a.length = b.length then decide (sumSq a b < 1/100) else true
  | .inr a, .inr b => if a.length = b.length then (if a.length = 0 then true else false) else true
  | .inl a, .inr b => if a.length = b.length then (if a.length = 0 then true else false) else true
  | .inr a, .inl b => if a.length = b.length then (if a.length = 0 then true else false) else true

/-- The `sqrt`-free form of `calculatePatternSimilarity`. -/
def patternSimilaritySq (p1 p2 : List PatElem) : ℚ :=
  if p1.length ≠ p2.length then 0
  else (((p1.zip p2).countP (fun pr => matchElemSq pr.1 pr.2) : ℕ) : ℚ) / (p1.length : ℚ)

/-- The evolution classification as the code performs it, with the square
root eliminated: re-extract with type `'melodic'` and the canonical
pattern's length at the first and last occurrence, then classify by the
strict thresholds (`> 0.8` stable, `> 0.5` variation, else transformation),
where similarity is the fraction of positions whose squared Euclidean
distance is below `0.01` (length-mismatched positions and extractions count
as distance `0` and similarity `0` respectively). -/
def evolutionSq (features : List Frame) (pattern : List PatElem) (occStarts : List ℕ) : Evo :=
  if occStarts.length < 2 then .stable
  else
    let firstP := extractPattern features (occStarts.headD 0) pattern.length .melodic
    let lastP := extractPattern features (occStarts.getLastD 0) pattern.length .melodic
    let similarity := patternSimilaritySq firstP lastP
    if 4/5 < similarity then .stable
    else if 1/2 < similarity then .variation
    else .transformation

theorem zipWith_sq_nonneg : ∀ (a b : List ℚ),
    ∀ x ∈ List.zipWith (fun x y => (x - y) ^ 2) a b, 0 ≤ x := by
  intro a
  induction a with
  | nil => intro b x hx; simp at hx
  | cons u us ih =>
    intro b x hx
    cases b with
    | nil => simp at hx
    | cons v vs =>
      rw [List.zipWith_cons_cons, List.mem_cons] at hx
      rcases hx with hx | hx
      · rw [hx]; positivity
      · exact ih vs x hx

theorem sumSq_nonneg (a b : List ℚ) : 0 ≤ sumSq a b :=
  List.sum_nonneg (zipWith_sq_nonneg a b)

theorem matchElem_eq_sq (sqrt : ℚ → ℚ)
    (hsqrt : ∀ s : ℚ, 0 ≤ s → (sqrt s < 1/10 ↔ s < 1/100)) (e1 e2 : PatElem) :
    matchElem sqrt e1 e2 = matchElemSq e1 e2 := by
  have h0 : decide (sqrt 0 < 1/10) = true := by
    rw [decide_eq_true_eq, hsqrt 0 le_rfl]
    norm_num
  cases e1 with
  | inl a =>
    cases e2 with
    | inl b =>
      simp only [matchElem, matchElemSq]
      by_cases hl : a.length = b.length
      · rw [if_pos hl, if_pos hl, decide_eq_decide]
        exact hsqrt (sumSq a b) (sumSq_nonneg a b)
      · rw [if_neg hl, if_neg hl]
    | inr b =>
      simp only [matchElem, matchElemSq]
      by_cases hl : a.length = b.length
      · rw [if_pos hl, if_pos hl]
        by_cases h00 : a.length = 0
        · rw [if_pos h00, if_pos h00, h0]
        · rw [if_neg h00, if_neg h00]
      · rw [if_neg hl, if_neg hl]
  | inr a =>
    cases e2 with
    | inl b =>
      simp only [matchElem, matchElemSq]
      by_cases hl : a.length = b.length
      · rw [if_pos hl, if_pos hl]
        by_cases h00 : a.length = 0
        · rw [if_pos h00, if_pos h00, h0]
        · rw [if_neg h00, if_neg h00]
      · rw [if_neg hl, if_neg hl]
    | inr b =>
      simp only [matchElem, matchElemSq]
      by_cases hl : a.length = b.length
      · rw [if_pos hl, if_pos hl]
        by_cases h00 : a.length = 0
        · rw [if_pos h00, if_pos h00, h0]
        · rw [if_neg h00, if_neg h00]
      · rw [if_neg hl, if_neg hl]

theorem calculatePatternSimilarity_eq_sq (sqrt : ℚ → ℚ)
    (hsqrt : ∀ s : ℚ, 0 ≤ s → (sqrt s < 1/10 ↔ s < 1/100)) (p1 p2 : List PatElem) :
    calculatePatternSimilarity sqrt p1 p2 = patternSimilaritySq p1 p2 := by
  unfold calculatePatternSimilarity patternSimilaritySq
  simp only [matchElem_eq_sq sqrt hsqrt]

theorem detectPatternEvolution_eq_sq (sqrt : ℚ → ℚ)
    (hsqrt : ∀ s : ℚ, 0 ≤ s → (sqrt s < 1/10 ↔ s < 1/100)) (pattern : List PatElem)
    (occs : List ℕ) (features : List Frame) :
    detectPatternEvolution sqrt pattern occs features = evolutionSq features pattern occs := by
  unfold detectPatternEvolution evolutionSq
  simp only [calculatePatternSimilarity_eq_sq sqrt hsqrt]

/-- A motif of `extractMotifs` comes from the melodic run (tagged melodic)
or from the harmonic run (tagged harmonic). -/
theorem extractMotifs_mem (sqrt : ℚ → ℚ) (mel ch : List Frame) (m : ℕ) :
    ∀ mo ∈ extractMotifs sqrt mel ch m,
      (mo.type = .melodic ∧ mo ∈ findRepeatingPatterns sqrt mel .melodic m) ∨
      (mo.type = .harmonic ∧ mo ∈ findRepeatingPatterns sqrt ch .harmonic m) := by
  intro mo hmo
  unfold extractMotifs at hmo
  rw [List.mem_append] at hmo
  rcases hmo with h | h
  · split at h
    · left
      obtain ⟨g, _, _, ht, _⟩ := findRepeatingPatterns_mem_spec sqrt mel .melodic m mo h
      exact ⟨ht, h⟩
    · exact absurd h (List.not_mem_nil mo)
  · split at h
    · right
      obtain ⟨g, _, _, ht, _⟩ := findRepeatingPatterns_mem_spec sqrt ch .harmonic m mo h
      exact ⟨ht, h⟩
    · exact absurd h (List.not_mem_nil mo)

/-- **C7, amended.**  For every motif returned by `extractMotifs`, the
`evolution` field is computed by re-extracting — always with type
`'melodic'` and with the canonical pattern's length — the pattern at the
motif's first and last occurrence in the motif's own series, and classifying
with strict thresholds: similarity `> 0.8` gives `stable`, `> 0.5` gives
`variation`, anything lower (including the degenerate `0/0` case)
`transformation`; similarity is the fraction of positional sub-elements
whose Euclidean distance is below `0.1` (equivalently, squared distance
below `0.01`), and `0` when the two re-extracted patterns have different
lengths.  (The claim's comparison of the *canonical* patterns at first and
last occurrence, with `≥` thresholds, fails — see `C7_counterexample`.) -/
theorem C7_amended (sqrt : ℚ → ℚ)
    (hsqrt : ∀ s : ℚ, 0 ≤ s → (sqrt s < 1/10 ↔ s < 1/100))
    (mel ch : List Frame) (m : ℕ) :
    ∀ mo ∈ extractMotifs sqrt mel ch m,
      mo.evolution = evolutionSq (if mo.type = .melodic then mel else ch) mo.pattern
        (mo.occurrences.map Prod.fst) := by
  intro mo hmo
  rcases extractMotifs_mem sqrt mel ch m mo hmo with ⟨ht, hmem⟩ | ⟨ht, hmem⟩
  · obtain ⟨g, _, _, _, hpat, hocc, hev⟩ :=
      findRepeatingPatterns_mem_spec sqrt mel .melodic m mo hmem
    rw [ht, if_pos rfl, hev, hocc, hpat, List.map_map]
    have hmm : (Prod.fst ∘ fun i => (i, i + 4)) = fun i : ℕ => i := by
      funext i
      rfl
    rw [hmm, List.map_id']
    exact detectPatternEvolution_eq_sq sqrt hsqrt g.1 g.2 mel
  · obtain ⟨g, _, _, _, hpat, hocc, hev⟩ :=
      findRepeatingPatterns_mem_spec sqrt ch .harmonic m mo hmem
    rw [ht, if_neg (by decide), hev, hocc, hpat, List.map_map]
    have hmm : (Prod.fst ∘ fun i => (i, i + 4)) = fun i : ℕ => i := by
      funext i
      rfl
    rw [hmm, List.map_id']
    exact detectPatternEvolution_eq_sq sqrt hsqrt g.1 g.2 ch

/-- The matching test as the claim reads it: positional sub-elements at
Euclidean distance below `0.1` — identical label lists are at distance `0`;
numeric lists compare the squared distance with `0.01`. -/
def claimMatch : PatElem → PatElem → Bool
  | .inl a, .inl b => decide (a.length = b.length ∧ sumSq a b < 1/100)
  | .inr a, .inr b => decide (a = b)
  | _, _ => false

/-- The evolution classification as the claim reads it: compare the
*canonical* patterns (full `k = 4` windows of the motif's own type) at the
first and last occurrence, with thresholds `≥ 0.8` → stable, `≥ 0.5` →
variation, else transformation. -/
def claimEvolution (features : List Frame) (t : PType) (occStarts : List ℕ) : Evo :=
  if occStarts.length < 2 then .stable
  else
    let firstP := extractPattern features (occStarts.headD 0) 4 t
    let lastP := extractPattern features (occStarts.getLastD 0) 4 t
    let s : ℚ :=
      if firstP.length ≠ lastP.length then 0
      else (((firstP.zip lastP).countP (fun pr => claimMatch pr.1 pr.2) : ℕ) : ℚ) /
        (firstP.length : ℚ)
    if 8/10 ≤ s then .stable
    else if 1/2 ≤ s then .variation
    else .transformation

/-- C7 counterexample input: the canonical pattern `[[5]]` occurs at windows
0, 2, 3 and 4 (a pitched frame at different offsets within the window), so
the re-extraction at length 1 sees a pitched frame at occurrence 0 but an
unpitched one at occurrence 4. -/
def melC7 : List Frame :=
  [⟨some [5], none⟩, ⟨none, none⟩, ⟨none, none⟩, ⟨none, none⟩, ⟨none, none⟩,
   ⟨some [5], none⟩, ⟨none, none⟩, ⟨none, none⟩, ⟨none, none⟩]

/-- The motif `extractMotifs` returns on `melC7`. -/
def motifC7 : Motif :=
  { id := "motif-melodic-0", type := .melodic, pattern := [Sum.inl [5]],
    occurrences := [(0, 4), (2, 6), (3, 7), (4, 8)], evolution := .transformation }

/-- **C7, counterexample.**  On `melC7` the single returned motif has
`evolution = transformation`, while the claim's rule — compare the canonical
pattern at the first and last occurrence (both `[[5]]`, at distance `0`,
similarity `1 ≥ 0.8`) — yields `stable`. -/
theorem C7_counterexample :
    motifC7 ∈ extractMotifs sqrtW melC7 [] 2 ∧
    motifC7.evolution = .transformation ∧
    claimEvolution melC7 .melodic (motifC7.occurrences.map Prod.fst) = .stable := by
  refine ⟨by decide, by decide, by decide⟩

/-- **C7, witness.**  The amended classification rule applied to the
concrete motif of `melC7` under the concrete square root `sqrtW`. -/
theorem C7_witness :
    (∀ s : ℚ, 0 ≤ s → (sqrtW s < 1/10 ↔ s < 1/100)) ∧
    motifC7 ∈ extractMotifs sqrtW melC7 [] 2 ∧
    motifC7.evolution = evolutionSq (if motifC7.type = .melodic then melC7 else [])
      motifC7.pattern (motifC7.occurrences.map Prod.fst) :=
  ⟨sqrtW_lt_iff, by decide,
    C7_amended sqrtW sqrtW_lt_iff melC7 [] 2 motifC7 (by decide)⟩

theorem extractPattern_melodic_nil (features : List Frame)
    (h : ∀ fr ∈ features, fr.pitch = none) (s l : ℕ) :
    extractPattern features s l .melodic = [] := by
  unfold extractPattern
  rw [List.filterMap_eq_nil_iff]
  intro fr hfr
  have hmem : fr ∈ features := List.drop_subset s features (List.take_subset l _ hfr)
  unfold frameProj
  rw [h fr hmem]
  rfl

/-- **C10, confirmed.**  For chord series whose frames carry no `pitch`
field, every harmonic motif with at least two occurrences has
`evolution = transformation`: `detectPatternEvolution` re-extracts both
compared occurrences with the hard-coded type `'melodic'`, producing empty
patterns whose similarity (`0/0`, the JS `NaN`) passes neither the `stable`
nor the `variation` threshold. -/
theorem C10_harmonic_transformation (sqrt : ℚ → ℚ) (mel ch : List Frame) (m : ℕ)
    (hch : ∀ fr ∈ ch, fr.pitch = none) :
    ∀ mo ∈ extractMotifs sqrt mel ch m, mo.type = .harmonic →
      2 ≤ mo.occurrences.length → mo.evolution = .transformation := by
  intro mo hmo htype hocc
  rcases extractMotifs_mem sqrt mel ch m mo hmo with ⟨ht, _⟩ | ⟨_, hmem⟩
  · rw [ht] at htype
    exact absurd htype (by decide)
  · obtain ⟨g, _, _, _, _, hoccs, hev⟩ :=
      findRepeatingPatterns_mem_spec sqrt ch .harmonic m mo hmem
    have hlen : mo.occurrences.length = g.2.length := by
      rw [hoccs, List.length_map]
    rw [hev]
    unfold detectPatternEvolution
    rw [if_neg (by omega)]
    rw [extractPattern_melodic_nil ch hch, extractPattern_melodic_nil ch hch]
    have hsim : calculatePatternSimilarity sqrt ([] : List PatElem) [] = 0 := by
      unfold calculatePatternSimilarity
      norm_num
    simp only [hsim]
    norm_num

/-- C10 witness input: six identical chord frames with no pitch field. -/
def chC10 : List Frame := List.replicate 6 ⟨none, some ["C"]⟩

/-- The motif `extractMotifs` returns on `chC10`. -/
def motifC10 : Motif :=
  { id := "motif-harmonic-0", type := .harmonic,
    pattern := [Sum.inr ["C"], Sum.inr ["C"], Sum.inr ["C"], Sum.inr ["C"]],
    occurrences := [(0, 4), (1, 5)], evolution := .transformation }

/-- **C10, witness.**  The theorem applied to the concrete harmonic motif of
`chC10`. -/
theorem C10_witness :
    (∀ fr ∈ chC10, fr.pitch = none) ∧
    motifC10 ∈ extractMotifs sqrtW [] chC10 2 ∧
    motifC10.type = .harmonic ∧
    2 ≤ motifC10.occurrences.length ∧
    motifC10.evolution = .transformation :=
  ⟨by decide, by decide, by decide, by decide,
    C10_harmonic_transformation sqrtW [] chC10 2 (by decide) motifC10 (by decide) (by decide)
      (by decide)⟩

/-! ### C1 — section coverage -/

theorem numWindows_pos (n w : ℕ) (hn : 1 ≤ n) (hw : 1 ≤ w) : 1 ≤ numWindows n w := by
  unfold numWindows
  rw [if_neg (by omega)]
  rw [Nat.le_div_iff_mul_le (by omega)]
  omega

theorem numWindows_mul_ge (n w : ℕ) (hn : 1 ≤ n) (hw : 1 ≤ w) : n ≤ numWindows n w * w := by
  unfold numWindows
  rw [if_neg (by omega)]
  have h1 := Nat.div_add_mod (n + w - 1) w
  have h2 : (n + w - 1) % w < w := Nat.mod_lt _ (by omega)
  rw [Nat.mul_comm]
  omega

theorem numWindows_pred_mul_lt (n w : ℕ) (hn : 1 ≤ n) (hw : 1 ≤ w) :
    (numWindows n w - 1) * w < n := by
  unfold numWindows
  rw [if_neg (by omega)]
  have h1 := Nat.div_add_mod (n + w - 1) w
  have h2 : (n + w - 1) % w < w := Nat.mod_lt _ (by omega)
  have h3 : ((n + w - 1) / w - 1) * w = (n + w - 1) / w * w - w := by
    rw [Nat.sub_mul, one_mul]
  rw [h3, Nat.mul_comm]
  omega

theorem getD_concat_last (l : List ℕ) (x : ℕ) : (l ++ [x]).getD l.length 0 = x := by
  rw [List.getD_eq_getElem?_getD, List.getElem?_append_right (le_refl l.length)]
  simp

theorem boundariesOf_length (stats : List WStat) (numWin : ℕ) :
    2 ≤ (boundariesOf stats numWin).length := by
  unfold boundariesOf
  rw [List.length_append, List.length_cons, List.length_singleton]
  omega

theorem getD_append_last (l : List ℕ) (x : ℕ) :
    (l ++ [x]).getD ((l ++ [x]).length - 1) 0 = x := by
  rw [List.length_append, List.length_singleton]
  have h1 : l.length + 1 - 1 = l.length := by omega
  rw [h1]
  exact getD_concat_last l x

theorem boundariesOf_getD_last (stats : List WStat) (numWin : ℕ) :
    (boundariesOf stats numWin).getD ((boundariesOf stats numWin).length - 1) 0
      = numWin - 1 := by
  unfold boundariesOf
  exact getD_append_last _ _

theorem boundariesOf_mem_le (stats : List WStat) (numWin : ℕ) :
    ∀ x ∈ boundariesOf stats numWin, x ≤ numWin - 1 := by
  intro x hx
  unfold boundariesOf at hx
  rw [List.mem_append] at hx
  rcases hx with hx | hx
  · rw [List.mem_cons] at hx
    rcases hx with rfl | hx
    · omega
    · rw [List.mem_filter, List.mem_range] at hx
      omega
  · rw [List.mem_singleton] at hx
    omega

theorem boundariesOf_pairwise_lt (stats : List WStat) (numWin : ℕ) (h2 : 2 ≤ numWin) :
    (boundariesOf stats numWin).Pairwise (· < ·) := by
  unfold boundariesOf
  rw [List.pairwise_append]
  refine ⟨?_, ?_, ?_⟩
  · rw [List.pairwise_cons]
    constructor
    · intro x hx
      rw [List.mem_filter] at hx
      have hx2 := hx.2
      rw [Bool.and_eq_true, decide_eq_true_eq] at hx2
      omega
    · exact (List.pairwise_lt_range _).sublist (List.filter_sublist _)
  · simp
  · intro a ha x hx
    rw [List.mem_singleton] at hx
    subst hx
    rw [List.mem_cons] at ha
    rcases ha with rfl | ha
    · omega
    · rw [List.mem_filter, List.mem_range] at ha
      omega

theorem boundariesOf_one (stats : List WStat) : boundariesOf stats 1 = [0, 0] := rfl

theorem pairwise_getD_lt (l : List ℕ) (h : l.Pairwise (· < ·)) (i j : ℕ) (hij : i < j)
    (hj : j < l.length) : l.getD i 0 < l.getD j 0 := by
  have hi : i < l.length := lt_trans hij hj
  rw [List.getD_eq_getElem _ _ hi, List.getD_eq_getElem _ _ hj]
  have := List.pairwise_iff_get.mp h ⟨i, hi⟩ ⟨j, hj⟩ hij
  simpa using this

theorem windowStats_length (sqrt : ℚ → ℚ) (f : Features) (fd : ℚ) (w n : ℕ) :
    (windowStats sqrt f fd w n).length = numWindows n w := by
  unfold windowStats
  simp

theorem windowStats_getD (sqrt : ℚ → ℚ) (f : Features) (fd : ℚ) (w n k : ℕ)
    (hk : k < numWindows n w) :
    (windowStats sqrt f fd w n).getD k dummyStat = statAt sqrt f fd w n k := by
  unfold windowStats
  exact getD_map_range _ dummyStat hk

theorem statAt_start (sqrt : ℚ → ℚ) (f : Features) (fd : ℚ) (w n k : ℕ) :
    (statAt sqrt f fd w n k).start = ((k * w : ℕ) : ℚ) * fd := rfl

theorem statAt_end (sqrt : ℚ → ℚ) (f : Features) (fd : ℚ) (w n k : ℕ) :
    (statAt sqrt f fd w n k).«end» = ((min (k * w + w) n : ℕ) : ℚ) * fd := rfl

theorem jsSlice_headD (l : List α) (s e : ℕ) (d : α) (h1 : s < e) (h2 : s < l.length) :
    (jsSlice l s e).headD d = l.getD s d := by
  rw [headD_eq_getD, jsSlice_getD l s e 0 d (by omega) (by omega)]
  simp

theorem jsSlice_getLastD (l : List α) (s e : ℕ) (d : α) (h1 : s < e) (h2 : s < l.length)
    (h3 : e ≤ l.length) : (jsSlice l s e).getLastD d = l.getD (e - 1) d := by
  rw [getLastD_eq_getD, jsSlice_length]
  have hmin : min (e - s) (l.length - s) = e - s := by omega
  rw [hmin, jsSlice_getD l s e (e - s - 1) d (by omega) (by omega)]
  congr 1
  omega

theorem mkSection_start (stats : List WStat) (a c : ℕ) (il : Bool) (h1 : a ≤ c)
    (h2 : a < stats.length) :
    (mkSection stats a c il).start = (stats.getD a dummyStat).start := by
  unfold mkSection
  dsimp only
  rw [jsSlice_headD stats a (c + 1) dummyStat (by omega) h2]

theorem mkSection_end (stats : List WStat) (a c : ℕ) (il : Bool) (h1 : a ≤ c)
    (h2 : c < stats.length) :
    (mkSection stats a c il).«end» = (stats.getD c dummyStat).«end» := by
  unfold mkSection
  dsimp only
  rw [jsSlice_getLastD stats a (c + 1) dummyStat (by omega) (by omega) (by omega)]
  simp

theorem mkSection_confidence (stats : List WStat) (a c : ℕ) (il : Bool) :
    0 ≤ (mkSection stats a c il).confidence ∧ (mkSection stats a c il).confidence ≤ 1 := by
  unfold mkSection
  dsimp only
  split_ifs <;> norm_num

theorem sectionsOf_length (stats : List WStat) (b : List ℕ) :
    (sectionsOf stats b).length = b.length - 1 := by
  unfold sectionsOf
  simp

theorem sectionsOf_getD (stats : List WStat) (b : List ℕ) (i : ℕ) (hi : i < b.length - 1) :
    (sectionsOf stats b).getD i dummySection
      = mkSection stats (b.getD i 0) (b.getD (i + 1) 0) (decide (i = b.length - 2)) := by
  unfold sectionsOf
  exact getD_map_range _ dummySection hi

/-- The core coverage facts about the section-assembly loop, stated over the
window-statistics list and boundary list it actually receives. -/
theorem sectionsOf_coverage (stats : List WStat) (b : List ℕ) (numWin n w : ℕ) (fd : ℚ)
    (hn : 1 ≤ n) (hw : 1 ≤ w) (hfd : 0 < fd)
    (hnw : numWin = numWindows n w)
    (hsl : stats.length = numWin)
    (hstart : ∀ k, k < numWin → (stats.getD k dummyStat).start = ((k * w : ℕ) : ℚ) * fd)
    (hend : ∀ k, k < numWin →
      (stats.getD k dummyStat).«end» = ((min (k * w + w) n : ℕ) : ℚ) * fd)
    (hb : b = boundariesOf stats numWin) :
    sectionsOf stats b ≠ [] ∧
    ((sectionsOf stats b).headD dummySection).start = 0 ∧
    ((sectionsOf stats b).getLastD dummySection).«end» = (n : ℚ) * fd ∧
    (∀ i, i + 1 < (sectionsOf stats b).length →
      ((sectionsOf stats b).getD i dummySection).start
        < ((sectionsOf stats b).getD (i + 1) dummySection).start ∧
      ((sectionsOf stats b).getD (i + 1) dummySection).start
        ≤ ((sectionsOf stats b).getD i dummySection).«end») ∧
    (∀ s ∈ sectionsOf stats b, s.start < s.«end» ∧ 0 ≤ s.confidence ∧ s.confidence ≤ 1) := by
  have hq1 : 1 ≤ numWin := hnw ▸ numWindows_pos n w hn hw
  have hq2 : n ≤ numWin * w := hnw ▸ numWindows_mul_ge n w hn hw
  have hq3 : (numWin - 1) * w < n := hnw ▸ numWindows_pred_mul_lt n w hn hw
  have hbl : 2 ≤ b.length := hb ▸ boundariesOf_length stats numWin
  have hmem : ∀ x ∈ b, x ≤ numWin - 1 := hb ▸ boundariesOf_mem_le stats numWin
  have hgetb : ∀ i, i < b.length → b.getD i 0 ≤ numWin - 1 := fun i hi =>
    hmem _ (getD_mem_of_lt b i 0 hi)
  have hlt : ∀ i, i < b.length → b.getD i 0 < stats.length := by
    intro i hi
    have := hgetb i hi
    omega
  have hble : ∀ i, i + 1 < b.length → b.getD i 0 ≤ b.getD (i + 1) 0 := by
    intro i hi
    by_cases h2 : 2 ≤ numWin
    · exact le_of_lt (pairwise_getD_lt b (hb ▸ boundariesOf_pairwise_lt stats numWin h2)
        i (i + 1) (by omega) hi)
    · have h1 : numWin = 1 := by omega
      have hb2 : b = [0, 0] := by rw [hb, h1]; exact boundariesOf_one stats
      subst hb2
      rcases i with _ | _ | i <;> simp
  -- the start/end formulas of section i
  have hformula : ∀ i, i < b.length - 1 →
      ((sectionsOf stats b).getD i dummySection).start
        = ((b.getD i 0 * w : ℕ) : ℚ) * fd ∧
      ((sectionsOf stats b).getD i dummySection).«end»
        = ((min (b.getD (i + 1) 0 * w + w) n : ℕ) : ℚ) * fd := by
    intro i hi
    rw [sectionsOf_getD stats b i hi]
    have ha : b.getD i 0 ≤ b.getD (i + 1) 0 := hble i (by omega)
    constructor
    · rw [mkSection_start _ _ _ _ ha (hlt i (by omega))]
      rw [show stats.getD (b.getD i 0) dummyStat
          = stats.getD (b.getD i 0) dummyStat from rfl]
      rw [hstart _ (by have := hgetb i (by omega); omega)]
    · rw [mkSection_end _ _ _ _ ha (hlt (i + 1) (by omega))]
      rw [hend _ (by have := hgetb (i + 1) (by omega); omega)]
  have hlen : (sectionsOf stats b).length = b.length - 1 := sectionsOf_length stats b
  have hmulw : ∀ i, i < b.length → b.getD i 0 * w < n := by
    intro i hi
    have h1 : b.getD i 0 ≤ numWin - 1 := hgetb i hi
    calc b.getD i 0 * w ≤ (numWin - 1) * w := Nat.mul_le_mul_right w h1
    _ < n := hq3
  refine ⟨?_, ?_, ?_, ?_, ?_⟩
  · intro hnil
    have := hlen
    rw [hnil] at this
    simp at this
    omega
  · rw [headD_eq_getD, (hformula 0 (by omega)).1]
    rw [show b.getD 0 0 = 0 from by rw [hb]; rfl]
    simp
  · rw [getLastD_eq_getD, hlen]
    have hil : b.length - 2 < b.length - 1 := by omega
    have h2 := (hformula (b.length - 2) hil).2
    rw [show b.length - 1 - 1 = b.length - 2 from by omega, h2]
    rw [show b.length - 2 + 1 = b.length - 1 from by omega]
    rw [show b.getD (b.length - 1) 0 = numWin - 1 from by
      rw [hb]; exact boundariesOf_getD_last stats numWin]
    have hminn : min ((numWin - 1) * w + w) n = n := by
      have : (numWin - 1) * w + w = numWin * w := by
        rw [← Nat.succ_pred_eq_of_pos hq1, Nat.succ_mul]
        simp
      rw [this]
      exact min_eq_right hq2
    rw [hminn]
  · intro i hi
    rw [hlen] at hi
    have hf1 := hformula i (by omega)
    have hf2 := hformula (i + 1) (by omega)
    have hnw2 : 2 ≤ numWin := by
      by_contra hcon
      have h1 : numWin = 1 := by omega
      have hb2 : b = [0, 0] := by rw [hb, h1]; exact boundariesOf_one stats
      rw [hb2] at hi
      simp at hi
    have hab : b.getD i 0 < b.getD (i + 1) 0 :=
      pairwise_getD_lt b (hb ▸ boundariesOf_pairwise_lt stats numWin hnw2) i (i + 1)
        (by omega) (by omega)
    constructor
    · rw [hf1.1, hf2.1]
      have hnat : b.getD i 0 * w < b.getD (i + 1) 0 * w :=
        Nat.mul_lt_mul_of_lt_of_le hab (le_refl w) (by omega)
      exact mul_lt_mul_of_pos_right (by exact_mod_cast hnat) hfd
    · rw [hf2.1, hf1.2]
      have hnat : b.getD (i + 1) 0 * w ≤ min (b.getD (i + 1) 0 * w + w) n := by
        have h1 : b.getD (i + 1) 0 * w < n := hmulw (i + 1) (by omega)
        omega
      exact mul_le_mul_of_nonneg_right (by exact_mod_cast hnat) (le_of_lt hfd)
  · intro s hs
    unfold sectionsOf at hs
    rw [List.mem_map] at hs
    obtain ⟨i, hi, rfl⟩ := hs
    rw [List.mem_range] at hi
    refine ⟨?_, mkSection_confidence stats _ _ _⟩
    have ha : b.getD i 0 ≤ b.getD (i + 1) 0 := hble i (by omega)
    rw [mkSection_start _ _ _ _ ha (hlt i (by omega)),
      mkSection_end _ _ _ _ ha (hlt (i + 1) (by omega))]
    rw [hstart _ (by have := hgetb i (by omega); omega),
      hend _ (by have := hgetb (i + 1) (by omega); omega)]
    have hnat : b.getD i 0 * w < min (b.getD (i + 1) 0 * w + w) n := by
      have h1 : b.getD i 0 * w < n := hmulw i (by omega)
      have h2 : b.getD i 0 * w ≤ b.getD (i + 1) 0 * w := Nat.mul_le_mul_right w ha
      omega
    exact mul_lt_mul_of_pos_right (by exact_mod_cast hnat) hfd

/-- **C1, amended.**  For every non-empty energy series (with a positive
window size, i.e. `hopSize ≤ 2 · sampleRate`, where the JS loop terminates):
the sections are non-empty, the first starts at `0`, the last ends at
`totalDuration = n · frameDuration`, starts are strictly increasing,
consecutive sections leave no gap (the next section starts no later than the
previous one ends — they in fact *overlap* by one window, so the sections do
not partition `[0, totalDuration]`, see `C1_counterexample`), every section
has positive extent, and every confidence lies in `[0, 1]`. -/
theorem C1_sections_coverage (sqrt : ℚ → ℚ) (f : Features) (sr hop : ℚ)
    (hE : f.energy ≠ []) (hw : 1 ≤ winSize sr hop) (hsr : 0 < sr) (hhop : 0 < hop) :
    detectSongSections sqrt f sr hop ≠ [] ∧
    ((detectSongSections sqrt f sr hop).headD dummySection).start = 0 ∧
    ((detectSongSections sqrt f sr hop).getLastD dummySection).«end»
      = (f.energy.length : ℚ) * (hop / sr) ∧
    (∀ i, i + 1 < (detectSongSections sqrt f sr hop).length →
      ((detectSongSections sqrt f sr hop).getD i dummySection).start
        < ((detectSongSections sqrt f sr hop).getD (i + 1) dummySection).start ∧
      ((detectSongSections sqrt f sr hop).getD (i + 1) dummySection).start
        ≤ ((detectSongSections sqrt f sr hop).getD i dummySection).«end») ∧
    (∀ s ∈ detectSongSections sqrt f sr hop,
      s.start < s.«end» ∧ 0 ≤ s.confidence ∧ s.confidence ≤ 1) := by
  have hn : 1 ≤ f.energy.length := List.length_pos.mpr hE
  have hsec : detectSongSections sqrt f sr hop
      = sectionsOf (windowStats sqrt f (hop / sr) (winSize sr hop) f.energy.length)
        (boundariesOf (windowStats sqrt f (hop / sr) (winSize sr hop) f.energy.length)
          (numWindows f.energy.length (winSize sr hop))) := by
    unfold detectSongSections
    rw [if_neg (by omega)]
  rw [hsec]
  exact sectionsOf_coverage _ _ (numWindows f.energy.length (winSize sr hop))
    f.energy.length (winSize sr hop) (hop / sr) hn hw (div_pos hhop hsr) rfl
    (windowStats_length _ _ _ _ _)
    (fun k hk => by rw [windowStats_getD _ _ _ _ _ _ hk]; exact statAt_start _ _ _ _ _ _)
    (fun k hk => by rw [windowStats_getD _ _ _ _ _ _ hk]; exact statAt_end _ _ _ _ _ _)
    rfl

/-- The claim-side predicate: the sections are non-empty, start at `0`, end
at `totalDuration`, tile it exactly (each section's `end` is the next one's
`start` — no gaps, no overlaps), have positive extent and confidences in
`[0, 1]`. -/
def sectionsPartition (secs : List SongSection) (total : ℚ) : Prop :=
  secs ≠ [] ∧
  (secs.headD dummySection).start = 0 ∧
  (secs.getLastD dummySection).«end» = total ∧
  (∀ pr ∈ secs.zip secs.tail, pr.1.«end» = pr.2.start) ∧
  (∀ s ∈ secs, s.start < s.«end» ∧ 0 ≤ s.confidence ∧ s.confidence ≤ 1)

/-- C1 counterexample input: six energy frames `[0,0,1,1,0,0]`; with
`sampleRate = hopSize = 1` the window size is 2, the jump into window 1
flags a boundary, and the two produced sections are `[0,4]` and `[2,6]` —
overlapping on `[2,4]`. -/
def featC1 : Features :=
  { energy := [.num 0, .num 0, .num 1, .num 1, .num 0, .num 0],
    tempo := [], harmony := [], timbre := [], danceability := [], melody := [] }

/-- **C1, counterexample.**  On `featC1` the detector returns two sections
`[0,4]` and `[2,6]`: consecutive sections share the boundary *window*, so
the returned sections overlap and do not partition `[0, 6]`. -/
theorem C1_counterexample :
    ¬ sectionsPartition (detectSongSections sqrtW featC1 1 1)
      ((featC1.energy.length : ℚ) * (1 / 1)) := by
  intro h
  have h4 := h.2.2.2.1
  have := h4 ((detectSongSections sqrtW featC1 1 1).getD 0 dummySection,
    (detectSongSections sqrtW featC1 1 1).getD 1 dummySection) (by decide)
  revert this
  decide

/-- **C1, witness.**  The amended coverage facts at the concrete input
`featC1`. -/
theorem C1_witness :
    (featC1.energy ≠ []) ∧ (1 ≤ winSize 1 1) ∧ ((0 : ℚ) < 1) ∧
    (detectSongSections sqrtW featC1 1 1 ≠ [] ∧
    ((detectSongSections sqrtW featC1 1 1).headD dummySection).start = 0 ∧
    ((detectSongSections sqrtW featC1 1 1).getLastD dummySection).«end»
      = (featC1.energy.length : ℚ) * (1 / 1) ∧
    (∀ i, i + 1 < (detectSongSections sqrtW featC1 1 1).length →
      ((detectSongSections sqrtW featC1 1 1).getD i dummySection).start
        < ((detectSongSections sqrtW featC1 1 1).getD (i + 1) dummySection).start ∧
      ((detectSongSections sqrtW featC1 1 1).getD (i + 1) dummySection).start
        ≤ ((detectSongSections sqrtW featC1 1 1).getD i dummySection).«end») ∧
    (∀ s ∈ detectSongSections sqrtW featC1 1 1,
      s.start < s.«end» ∧ 0 ≤ s.confidence ∧ s.confidence ≤ 1)) :=
  ⟨by decide, by decide, by norm_num,
    C1_sections_coverage sqrtW featC1 1 1 (by decide) (by decide) (by norm_num) (by norm_num)⟩

end Essentia
